import Mathlib

/-!
Verification development for the gopkgdoc repository.

The two subsystems under study are the package index (`src/index/index.go`)
and the documentation builder (`src/doc/builder.go`).  Go data structures are
embedded shallowly:

* Go maps are modelled as association lists (`lookupA`, `setA`); a Go map
  assignment `m[k] = v` is `setA`, a read `m[k]` is `(lookupA m k).getD zero`.
  Iteration order over a Go map is unspecified; wherever the source iterates
  over a map we iterate over the association list, and every property proved
  is insensitive to that order (the updates performed touch distinct keys).
* `identifier` (a Go `uint16`) is modelled as `Nat`; the conversion
  `identifier(n)` is `n % 65536`.
* `term` values are md5-based: `makeTerm` lowercases a string and either
  zero-pads it (length <= 16) or hashes it with a process-random salt.  The
  index never inspects a term, it only compares terms for equality, so the
  index is embedded over an arbitrary term type `T` with an arbitrary
  `mkTerm : String -> T`; the source behaviour is one instance.  Concrete
  witnesses use `T := String` with `makeTermStr` (lowercasing, which is the
  identity renaming of the zero-padded encoding for short ASCII terms).
* Go strings are Lean `String`s; the byte-level `synopsis` scanner of
  `src/doc/builder.go` works on byte lists (`List Nat`), since its 400-byte
  truncation is byte-based and can split a UTF-8 character.
-/

namespace GoPkgDoc

/-! ### Association lists (the embedding of Go maps) -/

/-- Lookup in an association list: the embedding of a Go map read with its
`ok` flag (`none` when the key is absent). -/
def lookupA {K A : Type} [DecidableEq K] : List (K × A) → K → Option A
  | [], _ => none
  | (k, v) :: rest, t => if t = k then some v else lookupA rest t

/-- Map assignment `m[k] = v`: replace the binding if present, else append. -/
def setA {K A : Type} [DecidableEq K] : List (K × A) → K → A → List (K × A)
  | [], k, v => [(k, v)]
  | (k', v') :: rest, k, v =>
    if k = k' then (k, v) :: rest else (k', v') :: setA rest k v

/-- The key list of an association list. -/
def keysA {K A : Type} (l : List (K × A)) : List K := l.map Prod.fst

/-- A well-formed map: no key bound twice.  Every association list produced
by `setA` from `[]` satisfies this. -/
def NoDupKeys {K A : Type} (l : List (K × A)) : Prop := (keysA l).Nodup

theorem lookupA_setA {K A : Type} [DecidableEq K]
    (l : List (K × A)) (k : K) (v : A) (t : K) :
    lookupA (setA l k v) t = if t = k then some v else lookupA l t := by
  induction l with
  | nil => simp [setA, lookupA]
  | cons p rest ih =>
    obtain ⟨k', v'⟩ := p
    by_cases hk : k = k'
    · subst hk
      by_cases ht : t = k <;> simp [setA, lookupA, ht]
    · by_cases ht : t = k'
      · subst ht
        simp [setA, lookupA, hk, Ne.symm hk]
      · simp [setA, lookupA, hk, ht, ih]

theorem lookupA_eq_none_iff {K A : Type} [DecidableEq K]
    (l : List (K × A)) (t : K) :
    lookupA l t = none ↔ t ∉ keysA l := by
  induction l with
  | nil => simp [lookupA, keysA]
  | cons p rest ih =>
    obtain ⟨k, v⟩ := p
    by_cases ht : t = k
    · subst ht; simp [lookupA, keysA]
    · simp [lookupA, keysA, ht, ih]

theorem mem_of_lookupA {K A : Type} [DecidableEq K]
    {l : List (K × A)} {t : K} {v : A} (h : lookupA l t = some v) :
    (t, v) ∈ l := by
  induction l with
  | nil => simp [lookupA] at h
  | cons p rest ih =>
    obtain ⟨k, w⟩ := p
    by_cases ht : t = k
    · subst ht
      simp [lookupA] at h
      simp [h]
    · simp [lookupA, ht] at h
      exact List.mem_cons_of_mem _ (ih h)

theorem lookupA_of_mem_nodup {K A : Type} [DecidableEq K]
    {l : List (K × A)} (hnd : NoDupKeys l) {t : K} {v : A} (h : (t, v) ∈ l) :
    lookupA l t = some v := by
  induction l with
  | nil => simp at h
  | cons p rest ih =>
    obtain ⟨k, w⟩ := p
    rcases List.mem_cons.mp h with h1 | h2
    · obtain ⟨rfl, rfl⟩ := Prod.mk.injEq .. ▸ h1
      simp_all [lookupA]
    · have hk : t ≠ k := by
        rintro rfl
        have : t ∈ keysA rest := by
          simpa [keysA] using List.mem_map_of_mem Prod.fst h2
        have := (List.nodup_cons.mp hnd).1
        simp [keysA] at this
        exact this v h2
      have hnd' : NoDupKeys rest := (List.nodup_cons.mp hnd).2
      simp [lookupA, hk, ih hnd' h2]

theorem mem_keysA_setA {K A : Type} [DecidableEq K]
    (l : List (K × A)) (k : K) (v : A) (t : K) :
    t ∈ keysA (setA l k v) ↔ t ∈ keysA l ∨ t = k := by
  rw [← not_iff_not]
  push_neg
  rw [← lookupA_eq_none_iff, ← lookupA_eq_none_iff, lookupA_setA]
  by_cases ht : t = k <;> simp [ht]

theorem noDupKeys_setA {K A : Type} [DecidableEq K]
    {l : List (K × A)} (h : NoDupKeys l) (k : K) (v : A) :
    NoDupKeys (setA l k v) := by
  induction l with
  | nil => simp [setA, NoDupKeys, keysA]
  | cons p rest ih =>
    obtain ⟨k', v'⟩ := p
    have hnd := List.nodup_cons.mp h
    by_cases hk : k = k'
    · subst hk
      simpa [setA, NoDupKeys, keysA] using h
    · have h1 : k' ∉ keysA (setA rest k v) := by
        intro hmem
        rcases (mem_keysA_setA rest k v k').mp hmem with hmem | rfl
        · exact hnd.1 (by simpa [keysA] using hmem)
        · exact hk rfl
      have h2 : NoDupKeys (setA rest k v) := ih hnd.2
      simp only [setA, if_neg hk, NoDupKeys, keysA, List.map_cons, List.nodup_cons]
      exact ⟨by simpa [keysA] using h1, h2⟩

/-! ### identifier sets -- `src/index/index.go` lines 50-100

`identifier` is `uint16`; an `identifierSet` is a sorted slice without
duplicates.  `sort.Search` is a binary search returning the smallest index at
which the predicate holds; on a sorted slice with predicate `ids[i] >= id`
that index is the number of elements smaller than `id`, which is how
`lowerBound` renders it (all theorems below assume sortedness, which is the
domain on which `sort.Search`'s contract applies). -/

/-- The index computed by `sort.Search(len(ids), func(i int) bool { return ids[i] >= id })`
on a sorted slice. -/
def lowerBound (ids : List Nat) (id : Nat) : Nat :=
  (ids.takeWhile (fun x => decide (x < id))).length

/-- `identifierSet.add` (`src/index/index.go` lines 77-90): append when the
value exceeds the last element, otherwise binary-search the insertion point,
return unchanged when already present, else shift right and insert. -/
def idsAdd (ids : List Nat) (id : Nat) : List Nat :=
  match ids.getLast? with
  | none => [id]
  | some last =>
    if last < id then ids ++ [id]
    else if ids.get? (lowerBound ids id) = some id then ids
    else ids.take (lowerBound ids id) ++ id :: ids.drop (lowerBound ids id)

/-- `identifierSet.remove` (`src/index/index.go` lines 92-100): binary-search
the value, return unchanged when absent, else shift left over it. -/
def idsRemove (ids : List Nat) (id : Nat) : List Nat :=
  if ids.get? (lowerBound ids id) = some id then
    ids.take (lowerBound ids id) ++ ids.drop (lowerBound ids id + 1)
  else ids

/-- The sorted-merge loop of `identifierSet.intersect`
(`src/index/index.go` lines 61-73).  The Go loop, for the current element
`x = ids[i]`, first advances `j` over every `other[j] < x` (the
`ids[i] > other[j]` branch), then either emits `x` and advances both, or
advances `i`; the recursion below performs exactly those steps, structurally
on the first list. -/
def intersectMerge : List Nat → List Nat → List Nat
  | [], _ => []
  | x :: xs, b =>
    match b.dropWhile (fun y => decide (y < x)) with
    | [] => []
    | y :: ys => if x = y then x :: intersectMerge xs ys else intersectMerge xs (y :: ys)

/-- `identifierSet.intersect` (`src/index/index.go` lines 57-75).  The Go
method appends to a destination slice `dst`; at every call site `dst` is
empty (`ids[:0]` reuses storage but holds no elements), so the model drops
the parameter. -/
def intersect (ids other : List Nat) : List Nat :=
  if ids.isEmpty || other.isEmpty then [] else intersectMerge ids other

/-! ### Facts about the identifier-set operations on sorted lists -/

theorem head?_eq_cons {α : Type} {l : List α} {a : α} (h : l.head? = some a) :
    l = a :: l.tail := by
  cases l <;> simp_all

theorem take_length_takeWhile {α : Type} (l : List α) (p : α → Bool) :
    l.take (l.takeWhile p).length = l.takeWhile p := by
  induction l with
  | nil => simp
  | cons x xs ih =>
    by_cases h : p x = true <;> simp [List.takeWhile_cons, h, ih]

theorem drop_length_takeWhile {α : Type} (l : List α) (p : α → Bool) :
    l.drop (l.takeWhile p).length = l.dropWhile p := by
  induction l with
  | nil => simp
  | cons x xs ih =>
    by_cases h : p x = true <;> simp [List.takeWhile_cons, List.dropWhile_cons, h, ih]

theorem takeWhile_append_not {α : Type} (p : α → Bool) (A B : List α) (y : α)
    (hA : ∀ x ∈ A, p x = true) (hy : ¬ p y = true) :
    (A ++ y :: B).takeWhile p = A := by
  induction A with
  | nil => simpa [List.takeWhile_cons] using hy
  | cons a A ih =>
    have ha : p a = true := hA a (by simp)
    simp only [List.cons_append, List.takeWhile_cons, ha, if_true]
    rw [ih (fun x hx => hA x (by simp [hx]))]

theorem takeWhile_all {α : Type} (p : α → Bool) (l : List α)
    (h : ∀ x ∈ l, p x = true) : l.takeWhile p = l := by
  induction l with
  | nil => simp
  | cons x xs ih =>
    simp [List.takeWhile_cons, h x (by simp), ih fun x hx => h x (by simp [hx])]

theorem get?_eq_head?_drop {α : Type} (l : List α) (i : Nat) :
    l.get? i = (l.drop i).head? := by
  induction l generalizing i with
  | nil => simp
  | cons x xs ih =>
    cases i with
    | zero => simp
    | succ n => simpa using ih n

theorem sorted_le_getLast {l : List Nat} (hs : List.Sorted (· < ·) l)
    {m : Nat} (hm : l.getLast? = some m) : ∀ y ∈ l, y ≤ m := by
  induction l with
  | nil => simp
  | cons x xs ih =>
    intro y hy
    rcases List.sorted_cons.mp hs with ⟨hx, hxs⟩
    cases xs with
    | nil =>
      simp at hm hy
      omega
    | cons z zs =>
      rw [List.getLast?_cons_cons] at hm
      rcases List.mem_cons.mp hy with rfl | hy'
      · have hmz : m ∈ z :: zs := List.mem_of_mem_getLast? (by simp [hm])
        exact le_of_lt (hx m hmz)
      · exact ih hxs hm y hy'

theorem mem_dropWhile_not_lt {l : List Nat} (hs : List.Sorted (· < ·) l)
    (v : Nat) : ∀ y ∈ l.dropWhile (fun x => decide (x < v)), ¬ y < v := by
  induction l with
  | nil => simp
  | cons x xs ih =>
    rcases List.sorted_cons.mp hs with ⟨hx, hxs⟩
    intro y hy
    by_cases h : x < v
    · rw [List.dropWhile_cons_of_pos (by simpa using h)] at hy
      exact ih hxs y hy
    · rw [List.dropWhile_cons_of_neg (by simpa using h)] at hy
      rcases List.mem_cons.mp hy with rfl | hy'
      · exact h
      · have := hx y hy'
        omega

theorem head?_dropWhile_mem {l : List Nat} (hs : List.Sorted (· < ·) l)
    (v : Nat) :
    ((l.dropWhile (fun x => decide (x < v))).head? = some v ↔ v ∈ l) := by
  induction l with
  | nil => simp
  | cons x xs ih =>
    rcases List.sorted_cons.mp hs with ⟨hx, hxs⟩
    by_cases h : x < v
    · rw [List.dropWhile_cons_of_pos (by simpa using h)]
      rw [ih hxs]
      constructor
      · exact fun hv => List.mem_cons_of_mem _ hv
      · intro hv
        rcases List.mem_cons.mp hv with rfl | hv'
        · omega
        · exact hv'
    · rw [List.dropWhile_cons_of_neg (by simpa using h)]
      simp only [List.head?_cons, Option.some.injEq]
      constructor
      · rintro rfl; simp
      · intro hv
        rcases List.mem_cons.mp hv with rfl | hv'
        · rfl
        · have := hx v hv'
          omega

theorem get?_lowerBound_iff {l : List Nat} (hs : List.Sorted (· < ·) l)
    (v : Nat) : (l.get? (lowerBound l v) = some v ↔ v ∈ l) := by
  rw [lowerBound, get?_eq_head?_drop, drop_length_takeWhile]
  exact head?_dropWhile_mem hs v

theorem mem_idsAdd (l : List Nat) (v a : Nat) :
    a ∈ idsAdd l v ↔ a = v ∨ a ∈ l := by
  rcases h : l.getLast? with _ | last
  · have : l = [] := List.getLast?_eq_none_iff.mp h
    subst this
    simp [idsAdd]
  · rw [show idsAdd l v = if last < v then l ++ [v]
        else if l.get? (lowerBound l v) = some v then l
        else l.take (lowerBound l v) ++ v :: l.drop (lowerBound l v) by
      rw [idsAdd, h]]
    by_cases hlt : last < v
    · simp [hlt, or_comm]
    · simp only [if_neg hlt]
      by_cases hg : l.get? (lowerBound l v) = some v
      · have hv : v ∈ l := List.get?_mem hg
        simp only [hg, if_pos rfl]
        constructor
        · exact fun ha => Or.inr ha
        · rintro (rfl | ha)
          · exact hv
          · exact ha
      · simp only [if_neg hg]
        rw [List.mem_append, List.mem_cons]
        constructor
        · rintro (ha | rfl | ha)
          · exact Or.inr (List.mem_of_mem_take ha)
          · exact Or.inl rfl
          · exact Or.inr (List.mem_of_mem_drop ha)
        · rintro (rfl | ha)
          · exact Or.inr (Or.inl rfl)
          · rcases List.mem_append.mp ((List.take_append_drop (lowerBound l v) l).symm ▸ ha) with h' | h'
            · exact Or.inl h'
            · exact Or.inr (Or.inr h')

theorem idsAdd_eq_of_not_mem {l : List Nat} (hs : List.Sorted (· < ·) l)
    {v : Nat} (hv : v ∉ l) :
    idsAdd l v = l.takeWhile (fun x => decide (x < v)) ++
      v :: l.dropWhile (fun x => decide (x < v)) := by
  rcases h : l.getLast? with _ | last
  · have : l = [] := List.getLast?_eq_none_iff.mp h
    subst this
    simp [idsAdd]
  · rw [show idsAdd l v = if last < v then l ++ [v]
        else if l.get? (lowerBound l v) = some v then l
        else l.take (lowerBound l v) ++ v :: l.drop (lowerBound l v) by
      rw [idsAdd, h]]
    by_cases hlt : last < v
    · have hall : ∀ x ∈ l, x < v := fun y hy =>
        lt_of_le_of_lt (sorted_le_getLast hs h y hy) hlt
      rw [if_pos hlt, takeWhile_all _ _ (fun x hx => by simpa using hall x hx)]
      have hdrop : l.dropWhile (fun x => decide (x < v)) = [] := by
        have := drop_length_takeWhile l (fun x => decide (x < v))
        rw [takeWhile_all _ _ (fun x hx => by simpa using hall x hx)] at this
        simpa using this.symm
      rw [hdrop]
    · have hg : ¬ l.get? (lowerBound l v) = some v := by
        rw [get?_lowerBound_iff hs]
        exact hv
      rw [if_neg hlt, if_neg hg, lowerBound, take_length_takeWhile,
        drop_length_takeWhile]

theorem sorted_idsAdd {l : List Nat} (hs : List.Sorted (· < ·) l) (v : Nat) :
    List.Sorted (· < ·) (idsAdd l v) := by
  by_cases hv : v ∈ l
  · have : idsAdd l v = l := by
      rcases h : l.getLast? with _ | last
      · have : l = [] := List.getLast?_eq_none_iff.mp h
        subst this; simp at hv
      · rw [show idsAdd l v = if last < v then l ++ [v]
            else if l.get? (lowerBound l v) = some v then l
            else l.take (lowerBound l v) ++ v :: l.drop (lowerBound l v) by
          rw [idsAdd, h]]
        by_cases hlt : last < v
        · have := sorted_le_getLast hs h v hv
          omega
        · rw [if_neg hlt, if_pos ((get?_lowerBound_iff hs v).mpr hv)]
    rw [this]; exact hs
  · rw [idsAdd_eq_of_not_mem hs hv]
    rw [List.Sorted, List.pairwise_append]
    refine ⟨List.Pairwise.sublist (List.takeWhile_sublist _) hs, ?_, ?_⟩
    · rw [List.pairwise_cons]
      refine ⟨?_, List.Pairwise.sublist (List.dropWhile_sublist _) hs⟩
      intro y hy
      have h1 := mem_dropWhile_not_lt hs v y hy
      have h2 : y ≠ v := by
        rintro rfl
        exact hv ((List.dropWhile_sublist _).subset hy)
      omega
    · intro a ha b hb
      have ha' : a < v := by simpa using List.mem_takeWhile_imp ha
      rcases List.mem_cons.mp hb with rfl | hb'
      · exact ha'
      · have := mem_dropWhile_not_lt hs v b hb'
        omega

theorem mem_idsRemove {l : List Nat} (hs : List.Sorted (· < ·) l) (v a : Nat) :
    a ∈ idsRemove l v ↔ a ∈ l ∧ a ≠ v := by
  rw [idsRemove]
  by_cases hg : l.get? (lowerBound l v) = some v
  · have hv : v ∈ l := List.get?_mem hg
    rw [if_pos hg]
    have hdrop : l.drop (lowerBound l v) = l.dropWhile (fun x => decide (x < v)) := by
      rw [lowerBound, drop_length_takeWhile]
    have htake : l.take (lowerBound l v) = l.takeWhile (fun x => decide (x < v)) := by
      rw [lowerBound, take_length_takeWhile]
    have hhead : (l.dropWhile (fun x => decide (x < v))).head? = some v := by
      rw [← hdrop, ← get?_eq_head?_drop]; exact hg
    have hD : l.dropWhile (fun x => decide (x < v)) =
        v :: (l.dropWhile (fun x => decide (x < v))).tail := head?_eq_cons hhead
    have hdrop1 : l.drop (lowerBound l v + 1) =
        (l.dropWhile (fun x => decide (x < v))).tail := by
      rw [← List.tail_drop, hdrop]
    have hsD : List.Sorted (· < ·) (l.dropWhile (fun x => decide (x < v))) :=
      List.Pairwise.sublist (List.dropWhile_sublist _) hs
    rw [htake, hdrop1]
    constructor
    · intro ha
      rcases List.mem_append.mp ha with h' | h'
      · have : a < v := by simpa using List.mem_takeWhile_imp h'
        exact ⟨(List.takeWhile_sublist _).subset h', by omega⟩
      · have haD : a ∈ l.dropWhile (fun x => decide (x < v)) := by
          rw [hD]; exact List.mem_cons_of_mem _ h'
        have hva : v < a := by
          rw [hD] at hsD
          exact (List.sorted_cons.mp hsD).1 a h'
        exact ⟨(List.dropWhile_sublist _).subset haD, by omega⟩
    · rintro ⟨ha, hne⟩
      rcases List.mem_append.mp ((List.takeWhile_append_dropWhile
          (p := fun x => decide (x < v)) (l := l)) ▸ ha) with h' | h'
      · exact List.mem_append.mpr (Or.inl h')
      · rw [hD] at h'
        rcases List.mem_cons.mp h' with rfl | h''
        · exact absurd rfl hne
        · exact List.mem_append.mpr (Or.inr h'')
  · rw [if_neg hg]
    have hv : v ∉ l := fun h => hg ((get?_lowerBound_iff hs v).mpr h)
    constructor
    · intro ha
      exact ⟨ha, fun h => hv (h ▸ ha)⟩
    · exact fun h => h.1

theorem sorted_idsRemove {l : List Nat} (hs : List.Sorted (· < ·) l) (v : Nat) :
    List.Sorted (· < ·) (idsRemove l v) := by
  rw [idsRemove]
  by_cases hg : l.get? (lowerBound l v) = some v
  · rw [if_pos hg]
    have hsub : List.Sublist (l.take (lowerBound l v) ++ l.drop (lowerBound l v + 1)) l := by
      conv_rhs => rw [← List.take_append_drop (lowerBound l v) l]
      apply List.Sublist.append_left
      rw [← List.tail_drop]
      exact List.tail_sublist _
    exact List.Pairwise.sublist hsub hs
  · rw [if_neg hg]; exact hs

theorem idsRemove_insert (A B : List Nat) (v : Nat)
    (hA : ∀ x ∈ A, x < v) : idsRemove (A ++ v :: B) v = A ++ B := by
  have hTW : (A ++ v :: B).takeWhile (fun x => decide (x < v)) = A :=
    takeWhile_append_not _ A B v (fun x hx => by simpa using hA x hx) (by simp)
  have hlb : lowerBound (A ++ v :: B) v = A.length := by
    rw [lowerBound, hTW]
  rw [idsRemove, hlb]
  have hget : (A ++ v :: B).get? A.length = some v := by
    rw [List.get?_append_right (Nat.le_refl _)]
    simp
  rw [if_pos hget, List.take_left]
  have : (A ++ v :: B).drop (A.length + 1) = B := by
    rw [← List.tail_drop, List.drop_left]
    rfl
  rw [this]

theorem idsAdd_remove {l : List Nat} (hs : List.Sorted (· < ·) l)
    {v : Nat} (hv : v ∉ l) : idsRemove (idsAdd l v) v = l := by
  rw [idsAdd_eq_of_not_mem hs hv,
    idsRemove_insert _ _ _ (fun x hx => by simpa using List.mem_takeWhile_imp hx),
    List.takeWhile_append_dropWhile]

/-! ### The documentation model consumed by the index

`doc.Package` (`src/doc/doc.go`, `src/doc/builder.go`) carries many fields;
the index reads only the ones below.  The declaration slices `Consts`,
`Vars`, `Funcs`, `Types` and `Errors` are consulted only through `len`, so
they are carried as counts. -/

structure DocPackage where
  importPath : String
  projectRoot : String
  name : String
  synopsis : String
  doc : String
  isCmd : Bool
  imports : List String
  numConsts : Nat
  numVars : Nat
  numFuncs : Nat
  numTypes : Nat
  numErrors : Nat
  deriving DecidableEq, Repr

/-- `strings.Index(s, ".")`: -1 when absent, else the position of the first
dot.  (Go reports a byte offset and compares it with the byte length; the
model uses character positions, which preserves both the "-1 when absent"
case and the relative order against `len(s)-1`, the only uses made of it.) -/
def strIndexDot (s : String) : Int :=
  match s.toList.findIdx? (fun c => c = '.') with
  | some n => (n : Int)
  | none => -1

/-- The file-name half of `path.Split`: everything after the final slash
(the whole string when there is no slash). -/
def pathSplitName (s : String) : String :=
  String.mk ((s.toList.reverse.takeWhile (fun c => c ≠ '/')).reverse)

/-- The sequence of terms that `addPackageTerms` (`src/index/index.go`
lines 133-170) ORs the mask into, in source order: nothing for an empty
name; always `project:<ProjectRoot>`; then, only when the eligibility test
passes, one `import:<path>` per import, the package name, and the
final import-path segment.

For a command (`IsCmd`) the source keeps the extra terms only when
`dpkg.Synopsis == ""` and `i <= len(dpkg.Doc)-1` are both false, where
`i = strings.Index(dpkg.Doc, ".")`; for a library only when some exported
const/var/func/type exists.  The comparison is transcribed exactly as
written (`i <= len-1`), not as the comment above it intends. -/
def termKeySeq {T : Type} (mkTerm : String → T) (d : DocPackage) : List T :=
  if d.name = "" then []
  else
    mkTerm ("project:" ++ d.projectRoot) ::
      (if (if d.isCmd then
            ¬(d.synopsis = "" ∨ strIndexDot d.doc ≤ (d.doc.length : Int) - 1)
          else
            ¬(d.numConsts = 0 ∧ d.numVars = 0 ∧ d.numFuncs = 0 ∧ d.numTypes = 0)) then
        d.imports.map (fun ip => mkTerm ("import:" ++ ip)) ++
          [mkTerm d.name, mkTerm (pathSplitName d.importPath)]
      else [])

/-- Fold `terms[k] = terms[k] | mask` over a key sequence: the accumulation
loop of `addPackageTerms` acting on the local `map[term]int`. -/
def applyKeys {T : Type} [DecidableEq T]
    (terms : List (T × Nat)) (ks : List T) (mask : Nat) : List (T × Nat) :=
  ks.foldl (fun tm k => setA tm k (((lookupA tm k).getD 0) ||| mask)) terms

/-- `addPackageTerms(terms, mask, dpkg)`: OR `mask` into the entry of every
term the package contributes.  The source interleaves building each term
with the map update; the model factors the same updates through the key
sequence `termKeySeq`, in the same order. -/
def addPackageTerms {T : Type} [DecidableEq T] (mkTerm : String → T)
    (terms : List (T × Nat)) (mask : Nat) (d : DocPackage) : List (T × Nat) :=
  applyKeys terms (termKeySeq mkTerm d) mask

theorem lor_lor_self (a m : Nat) : a ||| m ||| m = a ||| m := by
  apply Nat.eq_of_testBit_eq
  intro i
  simp [Nat.testBit_or]

theorem lookupA_applyKeys {T : Type} [DecidableEq T]
    (ks : List T) (terms : List (T × Nat)) (mask : Nat) (t : T) :
    lookupA (applyKeys terms ks mask) t =
      if t ∈ ks then some (((lookupA terms t).getD 0) ||| mask)
      else lookupA terms t := by
  induction ks generalizing terms with
  | nil => simp [applyKeys]
  | cons k ks ih =>
    have step : applyKeys terms (k :: ks) mask =
        applyKeys (setA terms k (((lookupA terms k).getD 0) ||| mask)) ks mask := rfl
    rw [step, ih]
    by_cases htk : t = k
    · subst htk
      by_cases hks : t ∈ ks
      · simp [hks, lookupA_setA, lor_lor_self]
      · simp [hks, lookupA_setA]
    · by_cases hks : t ∈ ks
      · simp [hks, htk, lookupA_setA]
      · simp [hks, htk, lookupA_setA]

theorem noDupKeys_applyKeys {T : Type} [DecidableEq T]
    {terms : List (T × Nat)} (h : NoDupKeys terms) (ks : List T) (mask : Nat) :
    NoDupKeys (applyKeys terms ks mask) := by
  induction ks generalizing terms with
  | nil => exact h
  | cons k ks ih => exact ih (noDupKeys_setA h k _)

theorem mem_keysA_applyKeys {T : Type} [DecidableEq T]
    (terms : List (T × Nat)) (ks : List T) (mask : Nat) (t : T) :
    t ∈ keysA (applyKeys terms ks mask) ↔ t ∈ keysA terms ∨ t ∈ ks := by
  rw [← not_iff_not]
  push_neg
  rw [← lookupA_eq_none_iff, ← lookupA_eq_none_iff, lookupA_applyKeys]
  by_cases hks : t ∈ ks <;> simp [hks]

/-! ### The index -- `src/index/index.go` lines 172-341 -/

/-- `Result`: the lightweight projection stored for listings.  `Score` is a
`float32` that only ever takes the values 0, 1, 2, 3 assigned in `Put`, so it
is carried as a `Nat` (the `byScore` comparison on these values agrees). -/
structure Result where
  importPath : String
  synopsis : String
  isCmd : Bool
  score : Nat
  deriving DecidableEq, Repr

/-- `ipackage`: the stored entry, a `Result` plus the full model. -/
structure IPackage where
  result : Result
  dpkg : DocPackage
  deriving DecidableEq, Repr

/-- The guarded state of `Index`: the slot array (`nil` entries are
tombstones), the import-path-to-identifier map, and the postings table. -/
structure IndexState (T : Type) where
  pkgs : List (Option IPackage)
  ids : List (String × Nat)
  terms : List (T × List Nat)
  deriving Repr

/-- `New()`: an initialized empty index. -/
def emptyIndex (T : Type) : IndexState T := ⟨[], [], []⟩

/-- `idx.pkgs[id]` read as an option (the identifier invariant keeps `id`
in range wherever the source indexes). -/
def slotGet (pkgs : List (Option IPackage)) (id : Nat) : Option IPackage :=
  (pkgs.get? id).getD none

/-- One iteration of the mask-directed postings update at the end of `Put`
(`src/index/index.go` lines 249-256): an `addMask` entry adds the
identifier, a `removeMask` entry removes it, anything else (both masks set)
is skipped. -/
def maskStep {T : Type} [DecidableEq T] (id : Nat)
    (tm : List (T × List Nat)) (p : T × Nat) : List (T × List Nat) :=
  match p.2 with
  | 1 => setA tm p.1 (idsAdd ((lookupA tm p.1).getD []) id)
  | 2 => setA tm p.1 (idsRemove ((lookupA tm p.1).getD []) id)
  | _ => tm

/-- The full mask loop of `Put`. -/
def applyMasks {T : Type} [DecidableEq T] (termsMap : List (T × List Nat))
    (pairs : List (T × Nat)) (id : Nat) : List (T × List Nat) :=
  pairs.foldl (maskStep id) termsMap

/-- The score computed at the top of `Put` (`src/index/index.go`
lines 202-214): 3 for a standard-library package (empty project root), 0
with build errors, 1 with no synopsis, else 2. -/
def putScore (d : DocPackage) : Nat :=
  if d.projectRoot = "" then 3
  else if 0 < d.numErrors then 0
  else if d.synopsis.length = 0 then 1
  else 2

/-- The `ipackage` entry built by `Put` (`src/index/index.go`
lines 216-224). -/
def putEntry (d : DocPackage) : IPackage :=
  ⟨⟨d.importPath, d.synopsis, d.isCmd, putScore d⟩, d⟩

/-- `Put` (`src/index/index.go` lines 200-258): score the package, build its
`addMask` term set, OR in `removeMask` for the previously stored model when
the path is already present, store the entry (a fresh path takes identifier
`identifier(len(pkgs))`, a `uint16` conversion), then apply the masks to the
postings table. -/
def put {T : Type} [DecidableEq T] (mkTerm : String → T)
    (idx : IndexState T) (d : DocPackage) : IndexState T :=
  match lookupA idx.ids d.importPath with
  | some id =>
    { pkgs := idx.pkgs.set id (some (putEntry d)),
      ids := idx.ids,
      terms := applyMasks idx.terms
        (match slotGet idx.pkgs id with
          | some old =>
            addPackageTerms mkTerm (addPackageTerms mkTerm [] 1 d) 2 old.dpkg
          | none => addPackageTerms mkTerm [] 1 d) id }
  | none =>
    { pkgs := idx.pkgs ++ [some (putEntry d)],
      ids := setA idx.ids d.importPath (idx.pkgs.length % 65536),
      terms := applyMasks idx.terms (addPackageTerms mkTerm [] 1 d)
        (idx.pkgs.length % 65536) }

/-- `Get` (`src/index/index.go` lines 261-268): `none` models the
`doc.ErrPackageNotFound` return. -/
def get {T : Type} (idx : IndexState T) (importPath : String) :
    Option DocPackage :=
  match lookupA idx.ids importPath with
  | some id => (slotGet idx.pkgs id).map (fun pkg => pkg.dpkg)
  | none => none

/-- The retraction loop of `Remove` (`src/index/index.go` lines 279-281):
for every collected term, remove the identifier from its postings list. -/
def removeFold {T : Type} [DecidableEq T] (termsMap : List (T × List Nat))
    (pairs : List (T × Nat)) (id : Nat) : List (T × List Nat) :=
  pairs.foldl
    (fun tm p => setA tm p.1 (idsRemove ((lookupA tm p.1).getD []) id))
    termsMap

/-- `Remove` (`src/index/index.go` lines 270-285): collect the stored
model's terms (mask 0), remove the identifier from each term's postings
list, and tombstone the slot. -/
def remove {T : Type} [DecidableEq T] (mkTerm : String → T)
    (idx : IndexState T) (importPath : String) : IndexState T :=
  match lookupA idx.ids importPath with
  | some id =>
    match slotGet idx.pkgs id with
    | some pkg =>
      { pkgs := idx.pkgs.set id none,
        ids := idx.ids,
        terms := removeFold idx.terms (addPackageTerms mkTerm [] 0 pkg.dpkg) id }
    | none => idx
  | none => idx

/-- The `results` helper (`src/index/index.go` lines 287-295): project the
non-tombstoned slots of an identifier list. -/
def resultsOf {T : Type} (idx : IndexState T) (ids : List Nat) : List Result :=
  ids.filterMap (fun id => (slotGet idx.pkgs id).map (fun pkg => pkg.result))

/-- `unicode.IsSpace` restricted to the ASCII range, which is all the query
strings under study contain. -/
def isSpaceGo (c : Char) : Bool :=
  c = ' ' || c = '\t' || c = '\n' || c = '\r' || c = '\x0b' || c = '\x0c'

/-- `strings.Fields` as a single left-to-right pass: accumulate the current
run of non-space characters (reversed) and flush it at each space and at the
end, producing the maximal non-space runs. -/
def fieldsAux : List Char → List Char → List (List Char)
  | [], acc => if acc.isEmpty then [] else [acc.reverse]
  | c :: rest, acc =>
    if isSpaceGo c then
      if acc.isEmpty then fieldsAux rest [] else acc.reverse :: fieldsAux rest []
    else fieldsAux rest (c :: acc)

def goFields (q : String) : List String :=
  (fieldsAux q.toList []).map String.mk

/-- `SortByNone`, `SortByPath`, `SortByScore` (`src/index/index.go`
lines 297-301). -/
def SortByNone : Nat := 0
def SortByPath : Nat := 1
def SortByScore : Nat := 2

/-- The final sort switch of `Query`.  `sort.Sort` is an unstable sort with
the strict comparators `ImportPath <` and `Score >`; insertion sort produces
one of its admissible outputs and agrees with it whenever the keys are
distinct (the queries studied use `SortByNone`, where no sorting happens). -/
def sortResults (rs : List Result) (sortBy : Nat) : List Result :=
  if sortBy = SortByPath then
    rs.insertionSort (fun a b => a.importPath < b.importPath ∨ a.importPath = b.importPath)
  else if sortBy = SortByScore then
    rs.insertionSort (fun a b => b.score ≤ a.score)
  else rs

/-- `Query` (`src/index/index.go` lines 304-341), transcribed exactly:
`"all:"` scans every non-placeholder slot; otherwise the query is split into
fields; one field reads its postings list; with more fields the source
computes `fields[0] ∩ fields[1]` and then — as written — keeps intersecting
with `fields[1]` again (`makeTerm(fields[1])` inside the loop over
`i := 2; i < len(fields)`), so fields past the second never constrain the
result. -/
def query {T : Type} [DecidableEq T] (mkTerm : String → T)
    (idx : IndexState T) (q : String) (sortBy : Nat) : List Result :=
  let results :=
    if q = "all:" then
      idx.pkgs.filterMap (fun s =>
        match s with
        | some pkg => if pkg.dpkg.name ≠ "" then some pkg.result else none
        | none => none)
    else
      match goFields q with
      | [] => resultsOf idx []
      | [f0] => resultsOf idx ((lookupA idx.terms (mkTerm f0)).getD [])
      | f0 :: f1 :: rest =>
        resultsOf idx (rest.foldl
          (fun acc _ => intersect acc ((lookupA idx.terms (mkTerm f1)).getD []))
          (intersect ((lookupA idx.terms (mkTerm f0)).getD [])
            ((lookupA idx.terms (mkTerm f1)).getD [])))
  sortResults results sortBy

/-! ### Characterizations of the postings-table updates -/

theorem lookupA_applyMasks {T : Type} [DecidableEq T]
    {pairs : List (T × Nat)} (hnd : NoDupKeys pairs)
    (tm : List (T × List Nat)) (id : Nat) (t : T) :
    lookupA (applyMasks tm pairs id) t =
      match lookupA pairs t with
      | some 1 => some (idsAdd ((lookupA tm t).getD []) id)
      | some 2 => some (idsRemove ((lookupA tm t).getD []) id)
      | _ => lookupA tm t := by
  induction pairs generalizing tm with
  | nil => simp [applyMasks, lookupA]
  | cons p rest ih =>
    obtain ⟨k, m⟩ := p
    have hk : k ∉ keysA rest := (List.nodup_cons.mp hnd).1
    have hnone : lookupA rest k = none := (lookupA_eq_none_iff rest k).mpr hk
    have hnd' : NoDupKeys rest := (List.nodup_cons.mp hnd).2
    have step : applyMasks tm ((k, m) :: rest) id =
        applyMasks (maskStep id tm (k, m)) rest id := rfl
    rw [step, ih hnd']
    by_cases htk : t = k
    · subst htk
      have hcons : lookupA ((t, m) :: rest) t = some m := by simp [lookupA]
      rw [hcons, hnone]
      rcases m with _ | _ | _ | n
      · simp [maskStep]
      · simp [maskStep, lookupA_setA]
      · simp [maskStep, lookupA_setA]
      · simp [maskStep]
    · have hl : lookupA ((k, m) :: rest) t = lookupA rest t := by
        simp [lookupA, htk]
      rw [hl]
      have hstep : lookupA (maskStep id tm (k, m)) t = lookupA tm t := by
        rcases m with _ | _ | _ | n
        · rfl
        · simp [maskStep, lookupA_setA, htk]
        · simp [maskStep, lookupA_setA, htk]
        · rfl
      rw [hstep]

theorem applyMasks_skip {T : Type} [DecidableEq T]
    (pairs : List (T × Nat)) (h : ∀ p ∈ pairs, p.2 ≠ 1 ∧ p.2 ≠ 2)
    (tm : List (T × List Nat)) (id : Nat) :
    applyMasks tm pairs id = tm := by
  induction pairs generalizing tm with
  | nil => rfl
  | cons p rest ih =>
    obtain ⟨k, m⟩ := p
    have hm1 : m ≠ 1 := (h (k, m) (by simp)).1
    have hm2 : m ≠ 2 := (h (k, m) (by simp)).2
    have hrest : ∀ p ∈ rest, p.2 ≠ 1 ∧ p.2 ≠ 2 :=
      fun p hp => h p (List.mem_cons_of_mem _ hp)
    have step : applyMasks tm ((k, m) :: rest) id =
        applyMasks (maskStep id tm (k, m)) rest id := rfl
    have hstep : maskStep id tm (k, m) = tm := by
      rcases m with _ | _ | _ | n
      · rfl
      · exact absurd rfl hm1
      · exact absurd rfl hm2
      · rfl
    rw [step, hstep]
    exact ih hrest tm

theorem lookupA_removeFold {T : Type} [DecidableEq T]
    {pairs : List (T × Nat)} (hnd : NoDupKeys pairs)
    (tm : List (T × List Nat)) (id : Nat) (t : T) :
    lookupA (removeFold tm pairs id) t =
      if t ∈ keysA pairs then
        some (idsRemove ((lookupA tm t).getD []) id)
      else lookupA tm t := by
  induction pairs generalizing tm with
  | nil => simp [removeFold, keysA]
  | cons p rest ih =>
    obtain ⟨k, m⟩ := p
    have hk : k ∉ keysA rest := (List.nodup_cons.mp hnd).1
    have hnd' : NoDupKeys rest := (List.nodup_cons.mp hnd).2
    have step : removeFold tm ((k, m) :: rest) id =
        removeFold (setA tm k (idsRemove ((lookupA tm k).getD []) id)) rest id := rfl
    rw [step, ih hnd']
    by_cases htk : t = k
    · subst htk
      rw [if_neg hk, if_pos (by simp [keysA]), lookupA_setA]
      simp
    · have hmem : (t ∈ keysA ((k, m) :: rest)) ↔ t ∈ keysA rest := by
        simp [keysA, htk]
      by_cases hr : t ∈ keysA rest
      · rw [if_pos hr, if_pos (hmem.mpr hr), lookupA_setA, if_neg htk]
      · rw [if_neg hr, if_neg (fun hh => hr (hmem.mp hh)), lookupA_setA, if_neg htk]

/-! ### The concrete term encoding used by witnesses

`makeTerm` (`src/index/index.go` lines 120-131) lowercases, then zero-pads
short strings into a 16-byte block and salt-hashes longer ones; the index
compares terms only for equality.  For the ASCII terms exercised below the
encoding is injective and equality of encodings coincides with equality of
the lowercased strings, so witnesses instantiate the abstract `mkTerm` with
plain ASCII lowercasing. -/

def lowerChar (c : Char) : Char :=
  if c.isUpper then Char.ofNat (c.toNat + 32) else c

def makeTermStr (s : String) : String :=
  String.mk (s.toList.map lowerChar)

/-! ### Unfoldings of `put` and facts used by the index theorems -/

theorem noDupKeys_nil {K A : Type} : NoDupKeys ([] : List (K × A)) := by
  simp [NoDupKeys, keysA]

theorem put_of_fresh {T : Type} [DecidableEq T] (mkTerm : String → T)
    (idx : IndexState T) (d : DocPackage)
    (h : lookupA idx.ids d.importPath = none) :
    put mkTerm idx d =
      { pkgs := idx.pkgs ++ [some (putEntry d)],
        ids := setA idx.ids d.importPath (idx.pkgs.length % 65536),
        terms := applyMasks idx.terms (addPackageTerms mkTerm [] 1 d)
          (idx.pkgs.length % 65536) } := by
  rw [put, h]

theorem put_of_present {T : Type} [DecidableEq T] (mkTerm : String → T)
    (idx : IndexState T) (d : DocPackage) {id : Nat} {old : IPackage}
    (h : lookupA idx.ids d.importPath = some id)
    (hs : slotGet idx.pkgs id = some old) :
    put mkTerm idx d =
      { pkgs := idx.pkgs.set id (some (putEntry d)),
        ids := idx.ids,
        terms := applyMasks idx.terms
          (addPackageTerms mkTerm (addPackageTerms mkTerm [] 1 d) 2 old.dpkg)
          id } := by
  simp only [put, h, hs]

theorem put_of_present_tomb {T : Type} [DecidableEq T] (mkTerm : String → T)
    (idx : IndexState T) (d : DocPackage) {id : Nat}
    (h : lookupA idx.ids d.importPath = some id)
    (hs : slotGet idx.pkgs id = none) :
    put mkTerm idx d =
      { pkgs := idx.pkgs.set id (some (putEntry d)),
        ids := idx.ids,
        terms := applyMasks idx.terms (addPackageTerms mkTerm [] 1 d) id } := by
  simp only [put, h, hs]

/-- Re-adding the same package computes every mask as
`addMask | removeMask = 3`, which the postings loop skips. -/
theorem addPackageTerms_twice_masks {T : Type} [DecidableEq T]
    (mkTerm : String → T) (d : DocPackage) :
    ∀ p ∈ addPackageTerms mkTerm (addPackageTerms mkTerm [] 1 d) 2 d,
      p.2 ≠ 1 ∧ p.2 ≠ 2 := by
  intro p hp
  have hnd : NoDupKeys
      (addPackageTerms mkTerm (addPackageTerms mkTerm [] 1 d) 2 d) :=
    noDupKeys_applyKeys (noDupKeys_applyKeys noDupKeys_nil _ _) _ _
  have hl := lookupA_of_mem_nodup hnd (show (p.1, p.2) ∈ _ from hp)
  rw [addPackageTerms, lookupA_applyKeys, addPackageTerms,
    lookupA_applyKeys] at hl
  by_cases hk : p.1 ∈ termKeySeq mkTerm d
  · rw [if_pos hk, if_pos hk] at hl
    simp only [lookupA, Option.getD_none, Option.getD_some,
      Option.some.injEq] at hl
    constructor <;> (rw [← hl]; decide)
  · rw [if_neg hk, if_neg hk] at hl
    simp [lookupA] at hl

theorem set_concat {α : Type} (l : List α) (a b : α) :
    (l ++ [a]).set l.length b = l ++ [b] := by
  induction l with
  | nil => rfl
  | cons x xs ih => simpa using ih

/-! ### `synopsis` -- `src/doc/builder.go` lines 41-79

The function works byte-by-byte over the Go string (`s[i]` is a byte) and
truncates at 400 bytes, so it is embedded over byte lists.  Byte values:
space 32, tab 9, carriage return 13, newline 10, period 46. -/

/-- `strings.SplitN(s, "\x5cn\x5cn", 2)[0]`: the prefix before the first
blank line. -/
def firstParagraph : List Nat → List Nat
  | 10 :: 10 :: _ => []
  | b :: rest => b :: firstParagraph rest
  | [] => []

def isWSByte (b : Nat) : Bool := b = 32 || b = 9 || b = 13 || b = 10

/-- The `last` state of the scanner: `other`, `period`, `space`. -/
inductive ScanState
  | other
  | period
  | space
  deriving DecidableEq

/-- The scanning loop of `synopsis`: whitespace after a period ends the
scan; whitespace after anything else is collapsed to a single space; a
period records the `period` state; every other byte is copied. -/
def sentenceScan : List Nat → ScanState → List Nat
  | [], _ => []
  | b :: rest, last =>
    if isWSByte b then
      match last with
      | .period => []
      | .other => 32 :: sentenceScan rest .space
      | .space => sentenceScan rest .space
    else if b = 46 then 46 :: sentenceScan rest .period
    else b :: sentenceScan rest .other

/-- `synopsis`: first paragraph, sentence scan, then truncation to 400
bytes (`buf = buf[:400]`, which can land inside a multi-byte character, as
the source's own TODO notes). -/
def synopsis (s : List Nat) : List Nat :=
  (sentenceScan (firstParagraph s) ScanState.space).take 400

/-- The byte list of an ASCII string (every character below 128, one byte
per character). -/
def asciiBytes (s : String) : List Nat := s.toList.map Char.toNat

/-- Adjacent-pair discipline of the scanner output: no period directly
followed by whitespace (the scan stops there) and no two adjacent
whitespace bytes (runs are collapsed). -/
def okPair (x y : Nat) : Prop :=
  ¬(x = 46 ∧ isWSByte y = true) ∧ ¬(isWSByte x = true ∧ isWSByte y = true)

theorem sentenceScan_invariants (l : List Nat) (st : ScanState) :
    ((sentenceScan l st).all fun b => !isWSByte b || b = 32) = true ∧
    List.Chain' okPair (sentenceScan l st) ∧
    (∀ y, (sentenceScan l st).head? = some y →
      isWSByte y = false ∨ (st = ScanState.other ∧ y = 32)) := by
  induction l generalizing st with
  | nil => simp [sentenceScan]
  | cons b rest ih =>
    by_cases hws : isWSByte b = true
    · match st with
      | .period => simp [sentenceScan, hws]
      | .space =>
        have := ih ScanState.space
        refine ⟨?_, ?_, ?_⟩
        · simpa [sentenceScan, hws] using this.1
        · simpa [sentenceScan, hws] using this.2.1
        · intro y hy
          rw [show sentenceScan (b :: rest) ScanState.space =
              sentenceScan rest ScanState.space by simp [sentenceScan, hws]] at hy
          rcases this.2.2 y hy with h | ⟨h, _⟩
          · exact Or.inl h
          · exact absurd h (by intro hc; cases hc)
      | .other =>
        have := ih ScanState.space
        have hrw : sentenceScan (b :: rest) ScanState.other =
            32 :: sentenceScan rest ScanState.space := by simp [sentenceScan, hws]
        refine ⟨?_, ?_, ?_⟩
        · rw [hrw]
          simp only [List.all_cons, Bool.and_eq_true]
          exact ⟨by decide, this.1⟩
        · rw [hrw]
          apply List.chain'_cons'.mpr
          refine ⟨?_, this.2.1⟩
          intro y hy
          rcases this.2.2 y hy with h | ⟨h, _⟩
          · exact ⟨by simp, by simp [h]⟩
          · exact absurd h (by intro hc; cases hc)
        · intro y hy
          rw [hrw] at hy
          simp at hy
          exact Or.inr ⟨rfl, hy.symm⟩
    · by_cases hdot : b = 46
      · subst hdot
        have := ih ScanState.period
        have hrw : sentenceScan (46 :: rest) st =
            46 :: sentenceScan rest ScanState.period := by
          simp [sentenceScan, hws]
        refine ⟨?_, ?_, ?_⟩
        · rw [hrw]
          simp only [List.all_cons, Bool.and_eq_true]
          exact ⟨by decide, this.1⟩
        · rw [hrw]
          apply List.chain'_cons'.mpr
          refine ⟨?_, this.2.1⟩
          intro y hy
          rcases this.2.2 y hy with h | ⟨h, _⟩
          · exact ⟨by simp [h], by simp [h]⟩
          · exact absurd h (by intro hc; cases hc)
        · intro y hy
          rw [hrw] at hy
          simp at hy
          subst hy
          exact Or.inl (by decide)
      · have := ih ScanState.other
        have hrw : sentenceScan (b :: rest) st =
            b :: sentenceScan rest ScanState.other := by
          simp [sentenceScan, hws, hdot]
        refine ⟨?_, ?_, ?_⟩
        · rw [hrw]
          simp only [List.all_cons, Bool.and_eq_true]
          exact ⟨by simp [hws], this.1⟩
        · rw [hrw]
          apply List.chain'_cons'.mpr
          refine ⟨?_, this.2.1⟩
          intro y hy
          rcases this.2.2 y hy with h | ⟨_, h⟩
          · exact ⟨fun hc => hdot hc.1, fun hc => (by simp [hws] at hc : False)⟩
          · exact ⟨fun hc => hdot hc.1, fun hc => (by simp [hws] at hc : False)⟩
        · intro y hy
          rw [hrw] at hy
          simp at hy
          subst hy
          exact Or.inl (by simpa using hws)

/-! ### `buildDoc` -- `src/doc/builder.go` lines 424-545

`buildDoc` calls the external `go/parser` and `go/doc` libraries; their
results enter the model as oracle fields on each source blob: whether the
blob parses and, when it does, the declared package name, whether it holds a
top-level `func main()` with no parameters and no results, and how many
exported declarations it contributes to `go/doc.New` after
`ast.PackageExports`.  Everything downstream of parsing is transcribed from
the source. -/

structure ParsedUnit where
  name : String
  hasEligibleMain : Bool
  numExports : Nat
  deriving DecidableEq, Repr

structure SourceBlob where
  filename : String
  url : String
  parsed : Option ParsedUnit
  deriving DecidableEq, Repr

/-- The characters of `path.Base`'s result for a non-empty, not-all-slash
path: read from the right, skip the trailing slashes, then take up to the
next slash.  (`t.reverse.takeWhile` on `t = chars.reverse.reverse` is
`chars.takeWhile` directly.) -/
def baseChars (s : String) : List Char :=
  ((s.toList.reverse.dropWhile (fun c => c = '/')).takeWhile
    (fun c => c ≠ '/')).reverse

/-- `path.Base`: empty path gives ".", trailing slashes are stripped, the
part after the last slash is kept, an all-slash path gives "/". -/
def pathBase (s : String) : String :=
  if s = "" then "."
  else if (baseChars s).isEmpty then "/"
  else String.mk (baseChars s)

/-- The successfully parsed non-test compilation units, with their file
names (`_test.go` files are skipped for package building). -/
def parsedNonTest (files : List SourceBlob) : List (String × ParsedUnit) :=
  files.filterMap (fun f =>
    if f.filename.endsWith "_test.go" then none
    else f.parsed.map (fun u => (f.filename, u)))

/-- The candidate package names (the keys of the `pkgs` map), in first
declaration order.  Go map iteration order is unspecified; the selection
fold below visits candidates in this order, and the properties proved do not
depend on which admissible order is taken. -/
def candidateNames (files : List SourceBlob) : List String :=
  (parsedNonTest files).foldl
    (fun acc p => if p.2.name ∈ acc then acc else acc ++ [p.2.name]) []

/-- The candidate selection fold (`src/doc/builder.go` lines 449-462):
score 3 for a name that is a suffix of the import path, else 2 for a
non-`main` name, else 1; highest score wins, first winner kept. -/
def selectName (importPath : String) (names : List String) :
    Option String × Nat :=
  names.foldl
    (fun acc n =>
      if acc.2 < 3 ∧ importPath.endsWith n = true then (some n, 3)
      else if acc.2 < 2 ∧ n ≠ "main" then (some n, 2)
      else if acc.2 < 1 then (some n, 1)
      else acc)
    (none, 0)

/-- The fields of the built `Package` that the claims under study consult;
the remaining fields (declaration lists, files, examples, synopsis, times)
are populated from the same `pdoc` and do not bear on them. -/
structure BPackage where
  importPath : String
  name : String
  children : List String
  isCmd : Bool
  hide : Bool
  deriving DecidableEq, Repr

inductive BuildErr
  | packageNotFound
  deriving DecidableEq, Repr

/-- The `builder.children` helper (`src/doc/builder.go` lines 372-382):
nil for an empty set, else the sorted key list.  The Go input is a
`map[string]bool`, so its keys are distinct; `sort.Strings` is rendered as
an insertion sort, which agrees on distinct keys. -/
def childrenList (m : List String) : List String :=
  if m.isEmpty then []
  else m.insertionSort (fun a b => a < b ∨ a = b)

/-- `buildDoc` (`src/doc/builder.go` lines 424-545) at the granularity the
claims need: group parsed non-test units by package name, select the best
candidate; with no candidate, return a children-only placeholder when
`knownChildren` is non-empty and `ErrPackageNotFound` otherwise; with a
candidate, apply the `documentation`-sentinel command rename and the hide
rule. -/
def buildDoc (importPath : String) (files : List SourceBlob)
    (children : List String) : Except BuildErr BPackage :=
  match (selectName importPath (candidateNames files)).1 with
  | none =>
    if 0 < children.length then
      Except.ok { importPath := importPath, name := "",
                  children := childrenList children,
                  isCmd := false, hide := false }
    else Except.error BuildErr.packageNotFound
  | some chosen =>
    let group := (parsedNonTest files).filter (fun p => p.2.name = chosen)
    let mainGroup := (parsedNonTest files).filter (fun p => p.2.name = "main")
    let hasAppMain := mainGroup.any (fun p => p.2.hasEligibleMain)
    let noExports := group.all (fun p => p.2.numExports = 0)
    let docGoOnly : Bool :=
      match group with
      | [p] => decide (pathBase p.1 = "doc.go")
      | _ => false
    let isCmd := chosen = "documentation" ∧ docGoOnly = true ∧
      noExports = true ∧ hasAppMain = true
    let name := if isCmd then pathBase importPath else chosen
    let hide := (name = "main" ∧ hasAppMain = true) ∨
      (noExports = true ∧ ¬isCmd)
    Except.ok { importPath := importPath, name := name,
                children := childrenList children,
                isCmd := decide isCmd, hide := decide hide }

/-! ### The lock discipline -- `src/index/index.go`

The claims about the reader/writer lock concern which `sync.RWMutex`
operations each exported method performs; those operations are transcribed
here as data, in source order.  `Get` (lines 261-268) contains no
`idx.mu` operation at all. -/

inductive LockOp
  | rlock
  | runlock
  | wlock
  | wunlock
  deriving DecidableEq, Repr

/-- `Get` (`src/index/index.go` lines 261-268). -/
def getLockOps : List LockOp := []

/-- `Query` (`src/index/index.go` lines 304-341): `RLock` then a deferred
`RUnlock`. -/
def queryLockOps : List LockOp := [LockOp.rlock, LockOp.runlock]

/-- `Subdirs` (`src/index/index.go` lines 344-370): `RLock` then a deferred
`RUnlock`. -/
def subdirsLockOps : List LockOp := [LockOp.rlock, LockOp.runlock]

/-- `Put` (`src/index/index.go` lines 200-258): `Lock` then a deferred
`Unlock`. -/
def putLockOps : List LockOp := [LockOp.wlock, LockOp.wunlock]

/-- `Remove` (`src/index/index.go` lines 270-285): `Lock` then a deferred
`Unlock`. -/
def removeLockOps : List LockOp := [LockOp.wlock, LockOp.wunlock]

/-! ### Concrete scenarios used by the claim theorems and witnesses -/

/-- A small indexed library: one exported function, project root `x`,
its import path `x/beta`, package name `alpha`. -/
def pkgAlpha : DocPackage :=
  { importPath := "x/beta", projectRoot := "x", name := "alpha",
    synopsis := "A.", doc := "A.", isCmd := false, imports := [],
    numConsts := 0, numVars := 0, numFuncs := 1, numTypes := 0,
    numErrors := 0 }

/-- The `Result` that `Put` stores for `pkgAlpha` (score 2: non-standard
project, no errors, synopsis present). -/
def resAlpha : Result :=
  { importPath := "x/beta", synopsis := "A.", isCmd := false, score := 2 }

/-- The index holding exactly `pkgAlpha`. -/
def idxAlpha : IndexState String := put makeTermStr (emptyIndex String) pkgAlpha

/-- A documented command: non-empty synopsis and a two-sentence `Doc`
(first period at position 12 of 27 characters), so by the source's comment
it should receive name/segment/import terms. -/
def cmdHello : DocPackage :=
  { importPath := "example.com/tool/hello", projectRoot := "example.com/tool",
    name := "hello", synopsis := "Hello prints.",
    doc := "Hello prints. It does more.", isCmd := true, imports := ["fmt"],
    numConsts := 0, numVars := 0, numFuncs := 0, numTypes := 0,
    numErrors := 0 }

/-- The package filling every slot of the at-capacity index. -/
def pkgOld : DocPackage :=
  { importPath := "x/p0", projectRoot := "x", name := "old",
    synopsis := "O.", doc := "O.", isCmd := false, imports := [],
    numConsts := 0, numVars := 0, numFuncs := 1, numTypes := 0,
    numErrors := 0 }

def ipkgOld : IPackage := ⟨⟨"x/p0", "O.", false, 2⟩, pkgOld⟩

/-- An index whose slot array has reached 2^16 entries, the regime where
`identifier(len(idx.pkgs))` wraps to 0.  It stands in for any index after
65536 distinct import paths were inserted; slot 0 holds `pkgOld`, reachable
through the import path `x/p0`. -/
def capIdx : IndexState String :=
  { pkgs := List.replicate 65536 (some ipkgOld),
    ids := [("x/p0", 0)], terms := [] }

/-- First version of the package stored at import path `x/q`. -/
def pkgVone : DocPackage :=
  { importPath := "x/q", projectRoot := "r", name := "vone",
    synopsis := "V.", doc := "V.", isCmd := false, imports := [],
    numConsts := 0, numVars := 0, numFuncs := 1, numTypes := 0,
    numErrors := 0 }

/-- Second version of the package stored at import path `x/q`. -/
def pkgVtwo : DocPackage :=
  { importPath := "x/q", projectRoot := "r", name := "vtwo",
    synopsis := "W.", doc := "W.", isCmd := false, imports := [],
    numConsts := 0, numVars := 0, numFuncs := 1, numTypes := 0,
    numErrors := 0 }

/-! ### Helper lemmas for the claim theorems -/

theorem all_take {α : Type} (l : List α) (p : α → Bool)
    (h : l.all p = true) (n : Nat) : (l.take n).all p = true := by
  rw [List.all_eq_true] at h ⊢
  exact fun x hx => h x (List.mem_of_mem_take hx)

theorem chain'_take {α : Type} {R : α → α → Prop} :
    ∀ (l : List α) (n : Nat), List.Chain' R l → List.Chain' R (l.take n) := by
  intro l
  induction l with
  | nil => intro n _; simp
  | cons x xs ih =>
    intro n h
    cases n with
    | zero => simp
    | succ n =>
      rw [List.take_succ_cons]
      rcases List.chain'_cons'.mp h with ⟨hx, hxs⟩
      apply List.chain'_cons'.mpr
      refine ⟨?_, ih n hxs⟩
      intro y hy
      apply hx y
      cases xs with
      | nil => simp at hy
      | cons z zs =>
        cases n with
        | zero => simp at hy
        | succ m => simpa using hy

theorem pathBase_ne_empty (s : String) : pathBase s ≠ "" := by
  rw [pathBase]
  by_cases h0 : s = ""
  · rw [if_pos h0]; decide
  · rw [if_neg h0]
    by_cases hb : (baseChars s).isEmpty
    · rw [if_pos hb]; decide
    · rw [if_neg hb]
      intro hc
      have hdata : baseChars s = [] := congrArg String.data hc
      rw [List.isEmpty_iff] at hb
      exact hb hdata

theorem selectName_none (ip : String) (names : List String)
    (h : (selectName ip names).1 = none) : names = [] := by
  suffices H : ∀ (names : List String) (acc : Option String × Nat),
      (names.foldl (fun acc n =>
        if acc.2 < 3 ∧ ip.endsWith n = true then (some n, 3)
        else if acc.2 < 2 ∧ n ≠ "main" then (some n, 2)
        else if acc.2 < 1 then (some n, 1)
        else acc) acc).1 = none → acc.1 = none ∧ (acc.2 = 0 → names = []) by
    exact (H names (none, 0) h).2 rfl
  intro names
  induction names with
  | nil => exact fun acc h => ⟨h, fun _ => rfl⟩
  | cons n ns ih =>
    intro acc h
    rw [List.foldl_cons] at h
    obtain ⟨h1, _⟩ := ih _ h
    by_cases c1 : acc.2 < 3 ∧ ip.endsWith n = true
    · rw [if_pos c1] at h1; simp at h1
    · rw [if_neg c1] at h1
      by_cases c2 : acc.2 < 2 ∧ n ≠ "main"
      · rw [if_pos c2] at h1; simp at h1
      · rw [if_neg c2] at h1
        by_cases c3 : acc.2 < 1
        · rw [if_pos c3] at h1; simp at h1
        · rw [if_neg c3] at h1
          exact ⟨h1, fun h0 => absurd h0 (by omega)⟩

theorem selectName_mem (ip : String) (names : List String) (n : String)
    (h : (selectName ip names).1 = some n) : n ∈ names := by
  suffices H : ∀ (names : List String) (acc : Option String × Nat),
      (names.foldl (fun acc n =>
        if acc.2 < 3 ∧ ip.endsWith n = true then (some n, 3)
        else if acc.2 < 2 ∧ n ≠ "main" then (some n, 2)
        else if acc.2 < 1 then (some n, 1)
        else acc) acc).1 = some n → acc.1 = some n ∨ n ∈ names by
    rcases H names (none, 0) h with h' | h'
    · simp at h'
    · exact h'
  intro names
  induction names with
  | nil => exact fun acc h => Or.inl h
  | cons m ns ih =>
    intro acc h
    rw [List.foldl_cons] at h
    rcases ih _ h with h' | h'
    · by_cases c1 : acc.2 < 3 ∧ ip.endsWith m = true
      · rw [if_pos c1] at h'; simp at h'; simp [h']
      · rw [if_neg c1] at h'
        by_cases c2 : acc.2 < 2 ∧ m ≠ "main"
        · rw [if_pos c2] at h'; simp at h'; simp [h']
        · rw [if_neg c2] at h'
          by_cases c3 : acc.2 < 1
          · rw [if_pos c3] at h'; simp at h'; simp [h']
          · rw [if_neg c3] at h'; exact Or.inl h'
    · exact Or.inr (List.mem_cons_of_mem _ h')

theorem candidateNames_mem (files : List SourceBlob) (n : String)
    (h : n ∈ candidateNames files) :
    ∃ p ∈ parsedNonTest files, p.2.name = n := by
  suffices H : ∀ (l : List (String × ParsedUnit)) (acc : List String),
      n ∈ l.foldl (fun acc p =>
        if p.2.name ∈ acc then acc else acc ++ [p.2.name]) acc →
      n ∈ acc ∨ ∃ p ∈ l, p.2.name = n by
    rcases H (parsedNonTest files) [] h with h' | h'
    · simp at h'
    · exact h'
  intro l
  induction l with
  | nil => exact fun acc h => Or.inl h
  | cons p ps ih =>
    intro acc h
    rw [List.foldl_cons] at h
    rcases ih _ h with h' | ⟨q, hq, hqn⟩
    · by_cases c : p.2.name ∈ acc
      · rw [if_pos c] at h'; exact Or.inl h'
      · rw [if_neg c] at h'
        rcases List.mem_append.mp h' with h'' | h''
        · exact Or.inl h''
        · simp at h''
          exact Or.inr ⟨p, by simp, h''.symm⟩
    · exact Or.inr ⟨q, List.mem_cons_of_mem _ hq, hqn⟩

theorem parsedNonTest_mem (files : List SourceBlob)
    (p : String × ParsedUnit) (h : p ∈ parsedNonTest files) :
    ∃ f ∈ files, f.parsed = some p.2 := by
  rw [parsedNonTest, List.mem_filterMap] at h
  obtain ⟨f, hf, hmap⟩ := h
  refine ⟨f, hf, ?_⟩
  by_cases ht : f.filename.endsWith "_test.go"
  · rw [if_pos ht] at hmap; cases hmap
  · rw [if_neg ht] at hmap
    rcases hp : f.parsed with _ | u
    · rw [hp] at hmap; cases hmap
    · rw [hp] at hmap
      have hpe : (f.filename, u) = p := by simpa using hmap
      rw [← hpe]

theorem mem_childrenList (m : List String) (c : String) :
    c ∈ childrenList m ↔ c ∈ m := by
  rw [childrenList]
  by_cases hm : m.isEmpty
  · rw [if_pos hm]
    rw [List.isEmpty_iff] at hm
    simp [hm]
  · rw [if_neg hm]
    exact (List.perm_insertionSort _ m).mem_iff

theorem childrenList_ne_nil {m : List String} (hm : m ≠ []) :
    childrenList m ≠ [] := by
  rw [childrenList, if_neg (by simpa [List.isEmpty_iff] using hm)]
  intro h
  have hperm := List.perm_insertionSort
    (fun a b : String => a < b ∨ a = b) m
  rw [h] at hperm
  exact hm hperm.symm.eq_nil

end GoPkgDoc

/-- C1: the claim states that a multi-term query intersects the postings
lists of all terms and short-circuits to empty when any term is unindexed.
The code intersects only the first two fields: the loop over the remaining
fields re-uses `fields[1]` instead of `fields[i]`, so with `zzz` unindexed
the three-term query `"alpha beta zzz"` still returns the `pkgAlpha` result,
while the two-term query `"alpha zzz"` correctly returns nothing. -/
theorem GoPkgDoc.C1_query_ignores_terms_after_second :
    GoPkgDoc.query GoPkgDoc.makeTermStr GoPkgDoc.idxAlpha "alpha beta zzz"
      GoPkgDoc.SortByNone = [GoPkgDoc.resAlpha] ∧
    GoPkgDoc.lookupA GoPkgDoc.idxAlpha.terms (GoPkgDoc.makeTermStr "zzz") =
      none ∧
    GoPkgDoc.query GoPkgDoc.makeTermStr GoPkgDoc.idxAlpha "alpha zzz"
      GoPkgDoc.SortByNone = [] :=
  ⟨rfl, rfl, rfl⟩

/-- C2: the claim states that a command with non-empty synopsis and more
than one sentence of documentation receives the package-name, path-segment
and import terms.  The source's guard `i <= len(dpkg.Doc)-1` holds for every
possible value of `i = strings.Index(dpkg.Doc, ".")`, so `addPackageTerms`
always returns right after the `project:` term for a command: `cmdHello`
(synopsis non-empty, first period at 12 of 27 characters, hence two
sentences) contributes only its `project:` term. -/
theorem GoPkgDoc.C2_command_terms_never_added :
    GoPkgDoc.addPackageTerms GoPkgDoc.makeTermStr [] 1 GoPkgDoc.cmdHello =
      [("project:example.com/tool", 1)] ∧
    ("hello", 1) ∉
      GoPkgDoc.addPackageTerms GoPkgDoc.makeTermStr [] 1 GoPkgDoc.cmdHello ∧
    GoPkgDoc.cmdHello.isCmd = true ∧
    GoPkgDoc.cmdHello.synopsis ≠ "" ∧
    GoPkgDoc.strIndexDot GoPkgDoc.cmdHello.doc = 12 ∧
    (GoPkgDoc.cmdHello.doc.length : Int) = 27 := by
  refine ⟨rfl, ?_, rfl, ?_, rfl, rfl⟩
  · decide
  · decide

/-- C3 counterexample: the claim describes the synopsis as ending at the
first `.`, `!` or `?` followed by whitespace or end of input, skipping
terminators preceded by an uppercase letter, and never splitting a
multi-byte character at the 400 truncation.  The code recognizes only `.`
("He said hi! then left." is returned whole, not cut at "hi!"), applies no
uppercase heuristic ("U.S. Army rocks." is cut to "U.S."), and truncates at
400 bytes even in the middle of the two-byte character 0xC3 0xA9. -/
theorem GoPkgDoc.C3_counterexample_synopsis :
    GoPkgDoc.synopsis (GoPkgDoc.asciiBytes "He said hi! then left.") =
      GoPkgDoc.asciiBytes "He said hi! then left." ∧
    GoPkgDoc.asciiBytes "He said hi! then left." ≠
      GoPkgDoc.asciiBytes "He said hi!" ∧
    GoPkgDoc.synopsis (GoPkgDoc.asciiBytes "U.S. Army rocks.") =
      GoPkgDoc.asciiBytes "U.S." ∧
    GoPkgDoc.asciiBytes "U.S." ≠ GoPkgDoc.asciiBytes "U.S. Army rocks." ∧
    GoPkgDoc.synopsis (List.replicate 399 97 ++ [195, 169]) =
      List.replicate 399 97 ++ [195] := by
  refine ⟨by decide, by decide, by decide, by decide, ?_⟩
  set_option maxRecDepth 4000 in decide

/-- C3 amended: `synopsis` takes the first paragraph, collapses every
whitespace run to a single space (32), stops at the first `.` that is
followed by whitespace — `!` and `?` do not terminate and there is no
uppercase/abbreviation heuristic — and truncates to at most 400 bytes,
possibly splitting a multi-byte character: the output never exceeds 400
bytes, its only whitespace byte is the single space, and no period is
directly followed by whitespace and no two whitespace bytes are adjacent. -/
theorem GoPkgDoc.C3_synopsis_first_dot_scan (s : List Nat) :
    (GoPkgDoc.synopsis s).length ≤ 400 ∧
    ((GoPkgDoc.synopsis s).all fun b =>
      !GoPkgDoc.isWSByte b || b = 32) = true ∧
    List.Chain' GoPkgDoc.okPair (GoPkgDoc.synopsis s) := by
  obtain ⟨h1, h2, _⟩ :=
    GoPkgDoc.sentenceScan_invariants (GoPkgDoc.firstParagraph s)
      GoPkgDoc.ScanState.space
  refine ⟨?_, ?_, ?_⟩
  · rw [GoPkgDoc.synopsis, List.length_take]
    exact Nat.min_le_left _ _
  · exact GoPkgDoc.all_take _ _ h1 400
  · exact GoPkgDoc.chain'_take _ 400 h2

/-- C4 counterexample: the claim states that after `Put(pkgV1)` then
`Put(pkgV2)` for the same import path, no residual term of `pkgV1` still
resolves to that path's identifier.  At the 65536-slot index `capIdx` the
fresh path `x/q` wraps to identifier 0; the second `Put` finds slot 0
occupied by `pkgOld` and retracts `pkgOld`'s terms instead of `pkgVone`'s,
so the term `vone` — absent from `pkgVtwo`'s term set — still resolves to
identifier 0, the identifier of `x/q`. -/
theorem GoPkgDoc.C4_counterexample_update :
    GoPkgDoc.lookupA (GoPkgDoc.put GoPkgDoc.makeTermStr
      (GoPkgDoc.put GoPkgDoc.makeTermStr GoPkgDoc.capIdx GoPkgDoc.pkgVone)
      GoPkgDoc.pkgVtwo).ids "x/q" = some 0 ∧
    GoPkgDoc.lookupA (GoPkgDoc.put GoPkgDoc.makeTermStr
      (GoPkgDoc.put GoPkgDoc.makeTermStr GoPkgDoc.capIdx GoPkgDoc.pkgVone)
      GoPkgDoc.pkgVtwo).terms "vone" = some [0] ∧
    "vone" ∈ (GoPkgDoc.addPackageTerms GoPkgDoc.makeTermStr [] 1
      GoPkgDoc.pkgVone).map Prod.fst ∧
    "vone" ∉ (GoPkgDoc.addPackageTerms GoPkgDoc.makeTermStr [] 1
      GoPkgDoc.pkgVtwo).map Prod.fst := by
  have hlen : GoPkgDoc.capIdx.pkgs.length = 65536 := by
    show (List.replicate 65536 (some GoPkgDoc.ipkgOld)).length = 65536
    rw [List.length_replicate]
  have hmod : GoPkgDoc.capIdx.pkgs.length % 65536 = 0 := by
    rw [hlen]
  have h1 := GoPkgDoc.put_of_fresh GoPkgDoc.makeTermStr GoPkgDoc.capIdx
    GoPkgDoc.pkgVone rfl
  rw [hmod] at h1
  have hidq2 : GoPkgDoc.lookupA
      (GoPkgDoc.put GoPkgDoc.makeTermStr GoPkgDoc.capIdx
        GoPkgDoc.pkgVone).ids GoPkgDoc.pkgVtwo.importPath = some 0 := by
    rw [h1]
    rw [GoPkgDoc.lookupA_setA, if_pos (show GoPkgDoc.pkgVtwo.importPath =
      GoPkgDoc.pkgVone.importPath from rfl)]
  have hslotq2 : GoPkgDoc.slotGet
      (GoPkgDoc.put GoPkgDoc.makeTermStr GoPkgDoc.capIdx
        GoPkgDoc.pkgVone).pkgs 0 = some GoPkgDoc.ipkgOld := by
    rw [h1]
    rw [GoPkgDoc.slotGet, List.get?_eq_getElem?,
      List.getElem?_append_left (by rw [hlen]; omega)]
    show (List.replicate 65536 (some GoPkgDoc.ipkgOld))[0]?.getD none =
      some GoPkgDoc.ipkgOld
    rw [List.getElem?_replicate_of_lt (by omega)]
    rfl
  rw [GoPkgDoc.put_of_present GoPkgDoc.makeTermStr
    (GoPkgDoc.put GoPkgDoc.makeTermStr GoPkgDoc.capIdx GoPkgDoc.pkgVone)
    GoPkgDoc.pkgVtwo hidq2 hslotq2, h1]
  refine ⟨rfl, ?_, by decide, by decide⟩
  rfl

/-- C4 amended: for an import path not yet in the index, while fewer than
2^16 slots exist (no identifier wraparound) and under the index invariants
that postings lists are sorted and do not yet mention the fresh identifier,
`Put(pkgV1)` then `Put(pkgV2)` for that path leaves the postings table
mapping the path's identifier to exactly `pkgV2`'s term set: a term's
postings list contains the identifier if and only if the term is one of
`pkgV2`'s. -/
theorem GoPkgDoc.C4_update_reflects_new_terms {T : Type} [DecidableEq T]
    (mkTerm : String → T) (idx : GoPkgDoc.IndexState T)
    (d1 d2 : GoPkgDoc.DocPackage)
    (hpath : d1.importPath = d2.importPath)
    (hfresh : GoPkgDoc.lookupA idx.ids d1.importPath = none)
    (hcap : idx.pkgs.length < 65536)
    (hterms : ∀ p ∈ idx.terms,
      List.Sorted (fun a b : Nat => a < b) p.2 ∧ idx.pkgs.length ∉ p.2) :
    ∀ t, (∃ l, GoPkgDoc.lookupA
        (GoPkgDoc.put mkTerm (GoPkgDoc.put mkTerm idx d1) d2).terms t =
          some l ∧ idx.pkgs.length ∈ l) ↔
      t ∈ GoPkgDoc.termKeySeq mkTerm d2 := by
  intro t
  have hmod : idx.pkgs.length % 65536 = idx.pkgs.length :=
    Nat.mod_eq_of_lt hcap
  have h1 := GoPkgDoc.put_of_fresh mkTerm idx d1 hfresh
  rw [hmod] at h1
  have hid2 : GoPkgDoc.lookupA (GoPkgDoc.put mkTerm idx d1).ids
      d2.importPath = some idx.pkgs.length := by
    rw [h1]
    rw [GoPkgDoc.lookupA_setA, if_pos hpath.symm]
  have hslot2 : GoPkgDoc.slotGet (GoPkgDoc.put mkTerm idx d1).pkgs
      idx.pkgs.length = some (GoPkgDoc.putEntry d1) := by
    rw [h1]
    rw [GoPkgDoc.slotGet, List.get?_concat_length]
    rfl
  rw [GoPkgDoc.put_of_present mkTerm (GoPkgDoc.put mkTerm idx d1) d2
    hid2 hslot2, h1]
  simp only [show (GoPkgDoc.putEntry d1).dpkg = d1 from rfl]
  have hpre : List.Sorted (fun a b : Nat => a < b)
      ((GoPkgDoc.lookupA idx.terms t).getD []) ∧
      idx.pkgs.length ∉ (GoPkgDoc.lookupA idx.terms t).getD [] := by
    rcases hp : GoPkgDoc.lookupA idx.terms t with _ | l0
    · simp
    · simpa using hterms (t, l0) (GoPkgDoc.mem_of_lookupA hp)
  have hP1 : GoPkgDoc.lookupA
      (GoPkgDoc.addPackageTerms mkTerm [] 1 d1) t =
      if t ∈ GoPkgDoc.termKeySeq mkTerm d1 then some 1 else none := by
    rw [GoPkgDoc.addPackageTerms, GoPkgDoc.lookupA_applyKeys]
    by_cases hk : t ∈ GoPkgDoc.termKeySeq mkTerm d1 <;>
      simp [hk, GoPkgDoc.lookupA]
  have hT1 : GoPkgDoc.lookupA (GoPkgDoc.applyMasks idx.terms
      (GoPkgDoc.addPackageTerms mkTerm [] 1 d1) idx.pkgs.length) t =
      if t ∈ GoPkgDoc.termKeySeq mkTerm d1 then
        some (GoPkgDoc.idsAdd ((GoPkgDoc.lookupA idx.terms t).getD [])
          idx.pkgs.length)
      else GoPkgDoc.lookupA idx.terms t := by
    have hndP1 : GoPkgDoc.NoDupKeys
        (GoPkgDoc.addPackageTerms mkTerm [] 1 d1) :=
      GoPkgDoc.noDupKeys_applyKeys GoPkgDoc.noDupKeys_nil _ _
    rw [GoPkgDoc.lookupA_applyMasks hndP1, hP1]
    by_cases hk : t ∈ GoPkgDoc.termKeySeq mkTerm d1 <;> simp [hk]
  have hP2 : GoPkgDoc.lookupA (GoPkgDoc.addPackageTerms mkTerm
      (GoPkgDoc.addPackageTerms mkTerm [] 1 d2) 2 d1) t =
      if t ∈ GoPkgDoc.termKeySeq mkTerm d1 then
        (if t ∈ GoPkgDoc.termKeySeq mkTerm d2 then some 3 else some 2)
      else
        (if t ∈ GoPkgDoc.termKeySeq mkTerm d2 then some 1 else none) := by
    rw [GoPkgDoc.addPackageTerms, GoPkgDoc.lookupA_applyKeys,
      GoPkgDoc.addPackageTerms, GoPkgDoc.lookupA_applyKeys]
    by_cases hk1 : t ∈ GoPkgDoc.termKeySeq mkTerm d1 <;>
      by_cases hk2 : t ∈ GoPkgDoc.termKeySeq mkTerm d2 <;>
        simp [hk1, hk2, GoPkgDoc.lookupA]
  have hndP2 : GoPkgDoc.NoDupKeys (GoPkgDoc.addPackageTerms mkTerm
      (GoPkgDoc.addPackageTerms mkTerm [] 1 d2) 2 d1) :=
    GoPkgDoc.noDupKeys_applyKeys
      (GoPkgDoc.noDupKeys_applyKeys GoPkgDoc.noDupKeys_nil _ _) _ _
  rw [GoPkgDoc.lookupA_applyMasks hndP2, hP2]
  by_cases hk1 : t ∈ GoPkgDoc.termKeySeq mkTerm d1 <;>
    by_cases hk2 : t ∈ GoPkgDoc.termKeySeq mkTerm d2
  · -- both: mask 3, postings keep the identifier added by the first put
    rw [if_pos hk1, if_pos hk2]
    simp only [hT1, if_pos hk1]
    constructor
    · intro _; exact hk2
    · intro _
      exact ⟨_, rfl, (GoPkgDoc.mem_idsAdd _ _ _).mpr (Or.inl rfl)⟩
  · -- only old: mask 2, the identifier is removed
    rw [if_pos hk1, if_neg hk2]
    simp only [hT1, if_pos hk1]
    constructor
    · rintro ⟨l, hl, hmem⟩
      injection hl with hl
      subst hl
      simp only [Option.getD_some] at hmem
      rw [GoPkgDoc.mem_idsRemove (GoPkgDoc.sorted_idsAdd hpre.1 _)] at hmem
      exact absurd rfl hmem.2
    · intro h; exact absurd h hk2
  · -- only new: mask 1, the identifier is added now
    rw [if_neg hk1, if_pos hk2]
    simp only [hT1, if_neg hk1]
    constructor
    · intro _; exact hk2
    · intro _
      exact ⟨_, rfl, (GoPkgDoc.mem_idsAdd _ _ _).mpr (Or.inl rfl)⟩
  · -- neither: postings untouched, invariant excludes the identifier
    rw [if_neg hk1, if_neg hk2]
    simp only [hT1, if_neg hk1]
    constructor
    · rintro ⟨l, hl, hmem⟩
      rcases hp : GoPkgDoc.lookupA idx.terms t with _ | l0
      · rw [hp] at hl; cases hl
      · rw [hp] at hl
        injection hl with hl
        have hni := (hterms (t, l0) (GoPkgDoc.mem_of_lookupA hp)).2
        rw [hl] at hni
        exact absurd hmem hni
    · intro h; exact absurd h hk2

/-- Witness for C4's amended theorem: on the empty index, after
`Put(pkgVone)` then `Put(pkgVtwo)`, the term of `pkgVtwo`'s package name
resolves to identifier 0. -/
theorem GoPkgDoc.C4_update_reflects_new_terms_witness :
    ((∃ l, GoPkgDoc.lookupA
        (GoPkgDoc.put GoPkgDoc.makeTermStr
          (GoPkgDoc.put GoPkgDoc.makeTermStr (GoPkgDoc.emptyIndex String)
            GoPkgDoc.pkgVone) GoPkgDoc.pkgVtwo).terms "vtwo" =
          some l ∧ 0 ∈ l) ↔
      "vtwo" ∈ GoPkgDoc.termKeySeq GoPkgDoc.makeTermStr GoPkgDoc.pkgVtwo) :=
  GoPkgDoc.C4_update_reflects_new_terms GoPkgDoc.makeTermStr
    (GoPkgDoc.emptyIndex String) GoPkgDoc.pkgVone GoPkgDoc.pkgVtwo rfl rfl
    (by decide) (by decide) "vtwo"

/-- C5: the claim states that `Get`, `Query` and `Subdirs` all acquire the
shared reader lock while `Put` and `Remove` take the writer lock.  `Query`,
`Subdirs`, `Put` and `Remove` do lock as described, but `Get` performs no
mutex operation at all: it reads `idx.ids` and `idx.pkgs` without the
reader lock. -/
theorem GoPkgDoc.C5_get_takes_no_lock :
    GoPkgDoc.getLockOps = [] ∧
    GoPkgDoc.LockOp.rlock ∉ GoPkgDoc.getLockOps ∧
    GoPkgDoc.queryLockOps.head? = some GoPkgDoc.LockOp.rlock ∧
    GoPkgDoc.subdirsLockOps.head? = some GoPkgDoc.LockOp.rlock ∧
    GoPkgDoc.putLockOps.head? = some GoPkgDoc.LockOp.wlock ∧
    GoPkgDoc.removeLockOps.head? = some GoPkgDoc.LockOp.wlock := by
  decide

/-- C7 counterexample: the claim states that `add` followed by `remove` of
the same value restores any sorted duplicate-free set.  When the value is
already present — here 5 in the sorted set `[5]` — `add` is a no-op, and
`remove` then deletes the pre-existing element, so the set is not
restored. -/
theorem GoPkgDoc.C7_counterexample_add_remove :
    List.Sorted (fun a b : Nat => a < b) [5] ∧
    GoPkgDoc.idsRemove (GoPkgDoc.idsAdd [5] 5) 5 = [] ∧
    ([] : List Nat) ≠ [5] := by
  decide

/-- C7 amended: for a sorted duplicate-free `identifierSet` and a value not
already in the set, `add` followed by `remove` of that value restores the
original set. -/
theorem GoPkgDoc.C7_add_then_remove_restores (s : List Nat) (v : Nat)
    (hs : List.Sorted (fun a b : Nat => a < b) s) (hv : v ∉ s) :
    GoPkgDoc.idsRemove (GoPkgDoc.idsAdd s v) v = s :=
  GoPkgDoc.idsAdd_remove hs hv

/-- Witness for C7's amended theorem at the sorted set `[1, 3]` and the
fresh value 2. -/
theorem GoPkgDoc.C7_add_then_remove_restores_witness :
    List.Sorted (fun a b : Nat => a < b) [1, 3] ∧ 2 ∉ [1, 3] ∧
    GoPkgDoc.idsRemove (GoPkgDoc.idsAdd [1, 3] 2) 2 = [1, 3] :=
  ⟨by decide, by decide,
    GoPkgDoc.C7_add_then_remove_restores [1, 3] 2 (by decide) (by decide)⟩

/-- C9: after `Remove(importPath)` of a stored package, `Get(importPath)`
returns not-found (the slot is tombstoned), and — given the index invariants
that postings lists are sorted and that the identifier occurs only in
postings of terms its stored model contributes — no term's postings list
still contains that path's identifier. -/
theorem GoPkgDoc.C9_remove_then_get_not_found {T : Type} [DecidableEq T]
    (mkTerm : String → T) (idx : GoPkgDoc.IndexState T) (path : String)
    (id : Nat) (pkg : GoPkgDoc.IPackage)
    (hid : GoPkgDoc.lookupA idx.ids path = some id)
    (hslot : GoPkgDoc.slotGet idx.pkgs id = some pkg)
    (hsorted : ∀ p ∈ idx.terms, List.Sorted (fun a b : Nat => a < b) p.2)
    (hinv : ∀ p ∈ idx.terms, id ∈ p.2 →
      p.1 ∈ GoPkgDoc.termKeySeq mkTerm pkg.dpkg) :
    GoPkgDoc.get (GoPkgDoc.remove mkTerm idx path) path = none ∧
    ∀ t l, GoPkgDoc.lookupA (GoPkgDoc.remove mkTerm idx path).terms t =
      some l → id ∉ l := by
  have hrm : GoPkgDoc.remove mkTerm idx path =
      { pkgs := idx.pkgs.set id none, ids := idx.ids,
        terms := GoPkgDoc.removeFold idx.terms
          (GoPkgDoc.addPackageTerms mkTerm [] 0 pkg.dpkg) id } := by
    simp only [GoPkgDoc.remove, hid, hslot]
  rw [hrm]
  constructor
  · have hlt : id < idx.pkgs.length := by
      by_contra hge
      push_neg at hge
      have hnone : idx.pkgs[id]? = none := List.getElem?_eq_none hge
      rw [GoPkgDoc.slotGet, List.get?_eq_getElem?, hnone] at hslot
      simp at hslot
    have hg : (idx.pkgs.set id none)[id]? = some none :=
      List.getElem?_set_self hlt
    simp only [GoPkgDoc.get, hid, GoPkgDoc.slotGet, List.get?_eq_getElem?, hg]
    rfl
  · intro t l hl
    have hndp : GoPkgDoc.NoDupKeys
        (GoPkgDoc.addPackageTerms mkTerm [] 0 pkg.dpkg) :=
      GoPkgDoc.noDupKeys_applyKeys GoPkgDoc.noDupKeys_nil _ _
    rw [GoPkgDoc.lookupA_removeFold hndp] at hl
    by_cases hk : t ∈ GoPkgDoc.keysA
        (GoPkgDoc.addPackageTerms mkTerm [] 0 pkg.dpkg)
    · rw [if_pos hk] at hl
      injection hl with hl
      subst hl
      have hspre : List.Sorted (fun a b : Nat => a < b)
          ((GoPkgDoc.lookupA idx.terms t).getD []) := by
        rcases hpre : GoPkgDoc.lookupA idx.terms t with _ | l0
        · simp
        · simpa using hsorted (t, l0) (GoPkgDoc.mem_of_lookupA hpre)
      intro hmem
      rw [GoPkgDoc.mem_idsRemove hspre] at hmem
      exact hmem.2 rfl
    · rw [if_neg hk] at hl
      intro hmem
      have hmemL := GoPkgDoc.mem_of_lookupA hl
      have hseq := hinv (t, l) hmemL hmem
      apply hk
      rw [GoPkgDoc.addPackageTerms, GoPkgDoc.mem_keysA_applyKeys]
      exact Or.inr hseq

/-- Witness for C9 at the one-package index `idxAlpha`: removing `x/beta`
makes `Get` return not-found. -/
theorem GoPkgDoc.C9_remove_then_get_not_found_witness :
    GoPkgDoc.get
      (GoPkgDoc.remove GoPkgDoc.makeTermStr GoPkgDoc.idxAlpha "x/beta")
      "x/beta" = none :=
  (GoPkgDoc.C9_remove_then_get_not_found GoPkgDoc.makeTermStr
    GoPkgDoc.idxAlpha "x/beta" 0 ⟨GoPkgDoc.resAlpha, GoPkgDoc.pkgAlpha⟩
    rfl rfl (by decide) (by decide)).1

/-- C6 counterexample: the claim states that a second identical `Put` never
changes the observable results.  At the 65536-slot index `capIdx` the first
`Put` of the fresh path `x/q` wraps its identifier to 0 while appending the
entry at slot 65536; the second `Put` then treats slot 0's occupant `pkgOld`
as the package being replaced: it overwrites slot 0, so `Get "x/p0"`
changes from `pkgOld` after one `Put` to `pkgVone` after two. -/
theorem GoPkgDoc.C6_counterexample_put_idempotent :
    GoPkgDoc.get (GoPkgDoc.put GoPkgDoc.makeTermStr
      (GoPkgDoc.put GoPkgDoc.makeTermStr GoPkgDoc.capIdx GoPkgDoc.pkgVone)
      GoPkgDoc.pkgVone) "x/p0" = some GoPkgDoc.pkgVone ∧
    GoPkgDoc.get
      (GoPkgDoc.put GoPkgDoc.makeTermStr GoPkgDoc.capIdx GoPkgDoc.pkgVone)
      "x/p0" = some GoPkgDoc.pkgOld ∧
    GoPkgDoc.pkgVone ≠ GoPkgDoc.pkgOld := by
  have hlen : GoPkgDoc.capIdx.pkgs.length = 65536 := by
    show (List.replicate 65536 (some GoPkgDoc.ipkgOld)).length = 65536
    rw [List.length_replicate]
  have hmod : GoPkgDoc.capIdx.pkgs.length % 65536 = 0 := by
    rw [hlen]
  have h1 := GoPkgDoc.put_of_fresh GoPkgDoc.makeTermStr GoPkgDoc.capIdx
    GoPkgDoc.pkgVone rfl
  rw [hmod] at h1
  have hidp0 : GoPkgDoc.lookupA
      (GoPkgDoc.setA GoPkgDoc.capIdx.ids GoPkgDoc.pkgVone.importPath 0)
      "x/p0" = some 0 := by
    rw [GoPkgDoc.lookupA_setA, if_neg (by decide)]
    rfl
  have hidq : GoPkgDoc.lookupA
      (GoPkgDoc.setA GoPkgDoc.capIdx.ids GoPkgDoc.pkgVone.importPath 0)
      GoPkgDoc.pkgVone.importPath = some 0 := by
    rw [GoPkgDoc.lookupA_setA, if_pos rfl]
  have hslot0 : GoPkgDoc.slotGet
      (GoPkgDoc.capIdx.pkgs ++ [some (GoPkgDoc.putEntry GoPkgDoc.pkgVone)])
      0 = some GoPkgDoc.ipkgOld := by
    rw [GoPkgDoc.slotGet, List.get?_eq_getElem?,
      List.getElem?_append_left (by rw [hlen]; omega)]
    show (List.replicate 65536 (some GoPkgDoc.ipkgOld))[0]?.getD none =
      some GoPkgDoc.ipkgOld
    rw [List.getElem?_replicate_of_lt (by omega)]
    rfl
  refine ⟨?_, ?_, by decide⟩
  · have hidq2 : GoPkgDoc.lookupA
        (GoPkgDoc.put GoPkgDoc.makeTermStr GoPkgDoc.capIdx
          GoPkgDoc.pkgVone).ids GoPkgDoc.pkgVone.importPath = some 0 := by
      rw [h1]; exact hidq
    have hslotq2 : GoPkgDoc.slotGet
        (GoPkgDoc.put GoPkgDoc.makeTermStr GoPkgDoc.capIdx
          GoPkgDoc.pkgVone).pkgs 0 = some GoPkgDoc.ipkgOld := by
      rw [h1]; exact hslot0
    rw [GoPkgDoc.put_of_present GoPkgDoc.makeTermStr
      (GoPkgDoc.put GoPkgDoc.makeTermStr GoPkgDoc.capIdx GoPkgDoc.pkgVone)
      GoPkgDoc.pkgVone hidq2 hslotq2, h1]
    have hslot0' : ((GoPkgDoc.capIdx.pkgs ++
        [some (GoPkgDoc.putEntry GoPkgDoc.pkgVone)]).set 0
        (some (GoPkgDoc.putEntry GoPkgDoc.pkgVone)))[0]? =
        some (some (GoPkgDoc.putEntry GoPkgDoc.pkgVone)) :=
      List.getElem?_set_self (by rw [List.length_append, hlen]; omega)
    simp only [GoPkgDoc.get, hidp0, GoPkgDoc.slotGet, List.get?_eq_getElem?,
      hslot0']
    rfl
  · rw [h1]
    simp only [GoPkgDoc.get, hidp0, hslot0]
    rfl

/-- C6 amended: below the identifier wraparound threshold — when the import
path is already present, or fewer than 2^16 slots exist — and under the
index invariant that every stored identifier is within the slot array, a
second `Put` of the identical package leaves the entire index state (and so
every `Get`/`Query`/`Subdirs` result and the postings table) unchanged: the
second call recomputes every term with both masks set, which the postings
loop skips. -/
theorem GoPkgDoc.C6_put_idempotent_below_capacity {T : Type} [DecidableEq T]
    (mkTerm : String → T) (idx : GoPkgDoc.IndexState T)
    (d : GoPkgDoc.DocPackage)
    (hwf : ∀ p ∈ idx.ids, p.2 < idx.pkgs.length)
    (hcap : GoPkgDoc.lookupA idx.ids d.importPath ≠ none ∨
      idx.pkgs.length < 65536) :
    GoPkgDoc.put mkTerm (GoPkgDoc.put mkTerm idx d) d =
      GoPkgDoc.put mkTerm idx d := by
  have hdp : (GoPkgDoc.putEntry d).dpkg = d := rfl
  rcases h1 : GoPkgDoc.lookupA idx.ids d.importPath with _ | id
  · have hlt : idx.pkgs.length < 65536 := by
      rcases hcap with hc | hc
      · exact absurd h1 hc
      · exact hc
    have hmod : idx.pkgs.length % 65536 = idx.pkgs.length :=
      Nat.mod_eq_of_lt hlt
    rw [GoPkgDoc.put_of_fresh mkTerm idx d h1, hmod]
    have hid1 : GoPkgDoc.lookupA
        (GoPkgDoc.setA idx.ids d.importPath idx.pkgs.length) d.importPath =
        some idx.pkgs.length := by
      rw [GoPkgDoc.lookupA_setA, if_pos rfl]
    have hslot1 : GoPkgDoc.slotGet
        (idx.pkgs ++ [some (GoPkgDoc.putEntry d)]) idx.pkgs.length =
        some (GoPkgDoc.putEntry d) := by
      rw [GoPkgDoc.slotGet, List.get?_concat_length]
      rfl
    rw [GoPkgDoc.put_of_present mkTerm _ d hid1 hslot1]
    simp only [hdp]
    rw [GoPkgDoc.applyMasks_skip _ (GoPkgDoc.addPackageTerms_twice_masks mkTerm d),
      GoPkgDoc.set_concat]
  · have hplt : id < idx.pkgs.length :=
      hwf (d.importPath, id) (GoPkgDoc.mem_of_lookupA h1)
    have hset : ∀ e : Option GoPkgDoc.IPackage,
        GoPkgDoc.slotGet (idx.pkgs.set id e) id = e := by
      intro e
      rw [GoPkgDoc.slotGet, List.get?_eq_getElem?,
        List.getElem?_set_self hplt]
      rfl
    rcases hs : GoPkgDoc.slotGet idx.pkgs id with _ | old
    · rw [GoPkgDoc.put_of_present_tomb mkTerm idx d h1 hs]
      rw [GoPkgDoc.put_of_present mkTerm
        { pkgs := idx.pkgs.set id (some (GoPkgDoc.putEntry d)),
          ids := idx.ids,
          terms := GoPkgDoc.applyMasks idx.terms
            (GoPkgDoc.addPackageTerms mkTerm [] 1 d) id }
        d h1 (hset (some (GoPkgDoc.putEntry d)))]
      simp only [hdp]
      rw [GoPkgDoc.applyMasks_skip _
        (GoPkgDoc.addPackageTerms_twice_masks mkTerm d), List.set_set]
    · rw [GoPkgDoc.put_of_present mkTerm idx d h1 hs]
      rw [GoPkgDoc.put_of_present mkTerm
        { pkgs := idx.pkgs.set id (some (GoPkgDoc.putEntry d)),
          ids := idx.ids,
          terms := GoPkgDoc.applyMasks idx.terms
            (GoPkgDoc.addPackageTerms mkTerm
              (GoPkgDoc.addPackageTerms mkTerm [] 1 d) 2 old.dpkg) id }
        d h1 (hset (some (GoPkgDoc.putEntry d)))]
      simp only [hdp]
      rw [GoPkgDoc.applyMasks_skip _
        (GoPkgDoc.addPackageTerms_twice_masks mkTerm d), List.set_set]

/-- Witness for C6's amended theorem: on the empty index (whose invariant
holds vacuously and whose slot array is far below capacity) a double `Put`
of `pkgAlpha` equals a single one. -/
theorem GoPkgDoc.C6_put_idempotent_below_capacity_witness :
    (∀ p ∈ (GoPkgDoc.emptyIndex String).ids,
      p.2 < (GoPkgDoc.emptyIndex String).pkgs.length) ∧
    GoPkgDoc.put GoPkgDoc.makeTermStr
      (GoPkgDoc.put GoPkgDoc.makeTermStr (GoPkgDoc.emptyIndex String)
        GoPkgDoc.pkgAlpha) GoPkgDoc.pkgAlpha =
      GoPkgDoc.put GoPkgDoc.makeTermStr (GoPkgDoc.emptyIndex String)
        GoPkgDoc.pkgAlpha :=
  ⟨by decide,
    GoPkgDoc.C6_put_idempotent_below_capacity GoPkgDoc.makeTermStr
      (GoPkgDoc.emptyIndex String) GoPkgDoc.pkgAlpha (by decide)
      (Or.inr (by decide))⟩

/-- C8: when no source blob parses into any candidate package, the builder
returns the placeholder `Package` with empty name and `Children` equal (as a
set) to `knownChildren` when that set is non-empty, and signals not-found
otherwise; consequently — given the parser's guarantee that a parsed unit's
package name is a non-empty identifier — the builder never returns a
`Package` with empty name and empty children. -/
theorem GoPkgDoc.C8_build_no_candidate (importPath : String)
    (files : List GoPkgDoc.SourceBlob) (children : List String)
    (hn : ∀ f ∈ files, ∀ u, f.parsed = some u → u.name ≠ "") :
    (GoPkgDoc.candidateNames files = [] →
      (0 < children.length →
        GoPkgDoc.buildDoc importPath files children =
          Except.ok { importPath := importPath, name := "",
                      children := GoPkgDoc.childrenList children,
                      isCmd := false, hide := false } ∧
        ∀ c, c ∈ GoPkgDoc.childrenList children ↔ c ∈ children) ∧
      (children.length = 0 →
        GoPkgDoc.buildDoc importPath files children =
          Except.error GoPkgDoc.BuildErr.packageNotFound)) ∧
    (∀ pkg, GoPkgDoc.buildDoc importPath files children = Except.ok pkg →
      pkg.name = "" → pkg.children ≠ []) := by
  constructor
  · intro hempty
    have hsel : (GoPkgDoc.selectName importPath
        (GoPkgDoc.candidateNames files)).1 = none := by
      rw [hempty]; rfl
    constructor
    · intro hpos
      rw [GoPkgDoc.buildDoc, hsel]
      exact ⟨by rw [if_pos hpos], fun c => GoPkgDoc.mem_childrenList children c⟩
    · intro hzero
      rw [GoPkgDoc.buildDoc, hsel, if_neg (by omega)]
  · intro pkg hok hname
    rcases hsel : (GoPkgDoc.selectName importPath
        (GoPkgDoc.candidateNames files)).1 with _ | chosen
    · rw [GoPkgDoc.buildDoc, hsel] at hok
      by_cases hc : 0 < children.length
      · rw [if_pos hc] at hok
        injection hok with hok
        subst hok
        exact GoPkgDoc.childrenList_ne_nil
          (by intro h; rw [h] at hc; simp at hc)
      · rw [if_neg hc] at hok
        cases hok
    · have hchosen : chosen ≠ "" := by
        obtain ⟨p, hp, hpn⟩ := GoPkgDoc.candidateNames_mem files chosen
          (GoPkgDoc.selectName_mem importPath _ chosen hsel)
        obtain ⟨f, hf, hfp⟩ := GoPkgDoc.parsedNonTest_mem files p hp
        have := hn f hf p.2 hfp
        rw [hpn] at this
        exact this
      simp only [GoPkgDoc.buildDoc, hsel] at hok
      injection hok with hok
      subst hok
      simp only at hname
      rcases ite_eq_iff.mp hname with ⟨_, hbase⟩ | ⟨_, hch⟩
      · exact absurd hbase (GoPkgDoc.pathBase_ne_empty importPath)
      · exact absurd hch hchosen

/-- Witness for C8: one unparsable blob and one known child produce the
children-only placeholder. -/
theorem GoPkgDoc.C8_build_no_candidate_witness :
    GoPkgDoc.buildDoc "x" [⟨"a.go", "u", none⟩] ["x/a"] =
      Except.ok { importPath := "x", name := "",
                  children := GoPkgDoc.childrenList ["x/a"],
                  isCmd := false, hide := false } :=
  (((GoPkgDoc.C8_build_no_candidate "x" [⟨"a.go", "u", none⟩] ["x/a"]
    (by
      intro f hf u hu
      simp at hf
      subst hf
      simp at hu)).1 rfl).1 (by decide)).1

/-- C10: `Put` assigns a fresh import path the identifier
`identifier(len(pkgs))`, a `uint16`, i.e. the slot count modulo 2^16; and
when the slot array has reached exactly 65536 entries, the fresh path's
identifier wraps to 0, so `Get` on the new path returns whatever package
slot 0 holds rather than the package just put. -/
theorem GoPkgDoc.C10_identifier_wraparound {T : Type} [DecidableEq T]
    (mkTerm : String → T) (idx : GoPkgDoc.IndexState T)
    (d : GoPkgDoc.DocPackage)
    (hfresh : GoPkgDoc.lookupA idx.ids d.importPath = none) :
    GoPkgDoc.lookupA (GoPkgDoc.put mkTerm idx d).ids d.importPath =
      some (idx.pkgs.length % 65536) ∧
    (idx.pkgs.length = 65536 →
      GoPkgDoc.get (GoPkgDoc.put mkTerm idx d) d.importPath =
        (GoPkgDoc.slotGet idx.pkgs 0).map (fun p => p.dpkg)) := by
  rw [GoPkgDoc.put_of_fresh mkTerm idx d hfresh]
  constructor
  · rw [GoPkgDoc.lookupA_setA]
    simp
  · intro hlen
    have hid : GoPkgDoc.lookupA
        (GoPkgDoc.setA idx.ids d.importPath (idx.pkgs.length % 65536))
        d.importPath = some 0 := by
      rw [GoPkgDoc.lookupA_setA, hlen]
      simp
    simp only [GoPkgDoc.get, hid]
    have hslot : GoPkgDoc.slotGet
        (idx.pkgs ++ [some (GoPkgDoc.putEntry d)]) 0 =
        GoPkgDoc.slotGet idx.pkgs 0 := by
      rw [GoPkgDoc.slotGet, GoPkgDoc.slotGet, List.get?_eq_getElem?,
        List.get?_eq_getElem?, List.getElem?_append_left (by omega)]
    rw [hslot]

/-- Witness for C10 at the 65536-slot index `capIdx`: putting the fresh
path `x/q` makes `Get "x/q"` return slot 0's package `pkgOld`, not
`pkgVone`. -/
theorem GoPkgDoc.C10_identifier_wraparound_witness :
    GoPkgDoc.lookupA GoPkgDoc.capIdx.ids GoPkgDoc.pkgVone.importPath = none ∧
    GoPkgDoc.get
      (GoPkgDoc.put GoPkgDoc.makeTermStr GoPkgDoc.capIdx GoPkgDoc.pkgVone)
      GoPkgDoc.pkgVone.importPath = some GoPkgDoc.pkgOld := by
  refine ⟨rfl, ?_⟩
  have hlen : GoPkgDoc.capIdx.pkgs.length = 65536 := by
    show (List.replicate 65536 (some GoPkgDoc.ipkgOld)).length = 65536
    rw [List.length_replicate]
  have h2 := (GoPkgDoc.C10_identifier_wraparound GoPkgDoc.makeTermStr
    GoPkgDoc.capIdx GoPkgDoc.pkgVone rfl).2 hlen
  rw [h2]
  show (GoPkgDoc.slotGet (List.replicate 65536 (some GoPkgDoc.ipkgOld)) 0).map
    (fun p => p.dpkg) = some GoPkgDoc.pkgOld
  rw [GoPkgDoc.slotGet, List.get?_eq_getElem?,
    List.getElem?_replicate_of_lt (by omega)]
  rfl
